import Mathlib

/-!
# Key encoding of the timeseries store (`tsdb/encoding.go`)

A shallow embedding of the key and value codecs of `tsdb/encoding.go` together
with the parts of the Go runtime they call (`strconv.FormatUint`,
`strconv.ParseUint`, `strconv.ParseFloat`, the `%0*s`, `%c`, `%s` and `%.3f` verbs
of `fmt.Sprintf`, string slicing and string comparison), followed by the
properties of the codecs.

Conventions of the embedding:

* a Go `string` is a sequence of bytes; a byte is a natural number below 256;
* a `uint64` is a natural number below `2^64`; arithmetic that can wrap is
  reduced modulo `2^64` explicitly;
* a `float64` is kept in the decoded form `strconv` reads from its bits: a NaN, an
  infinity, or a sign, a mantissa and a binary exponent;
* a Go function returning `(v, error)` returns the pair of `v` and an optional
  error, `none` standing for `nil`.
-/

namespace Tsdb

/-! ## Data model -/

/-- Go `string`: a sequence of bytes. -/
abbrev GoString := List Nat

/-- Bytes of an ASCII literal, used to write string constants. -/
def ascii (s : String) : GoString := s.data.map Char.toNat

/-- Bound of `uint64` arithmetic. -/
def uint64Size : Nat := 2 ^ 64

/-- Errors of `strconv` (`strconv.ErrSyntax`, `strconv.ErrRange`) as carried by a
`*strconv.NumError`. -/
inductive NumError where
  | errSyntax
  | errRange
  deriving DecidableEq, Repr

/-- Modelled from the spec: the error constructors `NewErrCorruptedWithString` and
`NewErrCorrupted` are declared outside `encoding.go`; the spec describes a single
"corrupted data" classification whose values either carry a message or wrap the
lower-level failure. `num` is a `strconv` failure seen as a Go `error`. -/
inductive Error where
  | num (e : NumError)
  | corruptedWithString (msg : String)
  | corrupted (inner : Error)
  deriving DecidableEq, Repr

/-- Modelled from the spec: `NewErrCorruptedWithString(s)`, a corrupted-data error
carrying the message `s`. -/
def NewErrCorruptedWithString (s : String) : Error := Error.corruptedWithString s

/-- Modelled from the spec: `NewErrCorrupted(err)`, a corrupted-data error wrapping
`err`. -/
def NewErrCorrupted (err : Error) : Error := Error.corrupted err

/-- Whether an error belongs to the corrupted-data classification. -/
def Error.isCorrupted : Error → Bool
  | Error.num _ => false
  | Error.corruptedWithString _ => true
  | Error.corrupted _ => true

/-! ## Constants of `encoding.go` -/

/-- Namespace byte of timeseries names, `'1'`. -/
def prefixTsName : Nat := 49
/-- Namespace byte of timeseries keys, `'2'`. -/
def prefixTsKey : Nat := 50
/-- Namespace byte of hash-table names, `'3'`. -/
def prefixHashName : Nat := 51
/-- Namespace byte of hash-table keys, `'4'`. -/
def prefixHashKey : Nat := 52

/-- Incoming timestamps are stored as the difference to this horizon. -/
def timeStampHorizon : Nat := 1449308016
/-- Numeral base of stored timestamps. -/
def timeStampConvBase : Nat := 36
/-- Length of a stored timestamp. -/
def timeStampSLength : Nat := 7

def ErrTimeStampString : Error := NewErrCorruptedWithString "invalid timestamp string"
def ErrTsKey : Error := NewErrCorruptedWithString "invalid series key"
def ErrTsName : Error := NewErrCorruptedWithString "invalid series name"

/-! ## Go runtime -/

/-- The digit table of `strconv`: `"0123456789abcdefghijklmnopqrstuvwxyz"`. -/
def digits : GoString :=
  [48, 49, 50, 51, 52, 53, 54, 55, 56, 57,
   97, 98, 99, 100, 101, 102, 103, 104, 105, 106, 107, 108, 109,
   110, 111, 112, 113, 114, 115, 116, 117, 118, 119, 120, 121, 122]

/-- Indexing `digits[i]`; the index is always below the base, hence below 36. -/
def digitAt (i : Nat) : Nat := digits.getD i 0

/-- The general-case loop of `strconv.formatBits`: while `u >= b`, the digit of
`u - (u / b) * b` is written in front of the digits produced so far and `u`
becomes `u / b`; the last digit written is that of `u < b`. The digits are
written backwards into a buffer of 65 bytes, so the loop body runs at most 64
times: `fuel` counts the remaining runs. -/
def formatBitsLoop : Nat → Nat → Nat → GoString → GoString
  | 0, u, _, acc => digitAt u :: acc
  | fuel + 1, u, b, acc =>
    if u ≥ b then
      let q := u / b
      formatBitsLoop fuel q b (digitAt (u - q * b) :: acc)
    else
      digitAt u :: acc

/-- `strconv.FormatUint(i, base)` for a base that is not 10 (the call site passes
36), through the general case of `formatBits`. -/
def FormatUint (i : Nat) (base : Nat) : GoString :=
  formatBitsLoop 64 i base []

/-- `fmt.Sprintf("%0*s", width, s)`: `s` padded on the left with `'0'` up to
`width` characters, and written whole when it is longer. The width counts
runes; for the ASCII numerals formatted here that is the number of bytes. -/
def sprintfPadZero (width : Nat) (s : GoString) : GoString :=
  List.replicate (width - s.length) 48 ++ s

/-- The helper `lower` of `strconv`: `c | ('x' - 'X')`. -/
def lower (c : Nat) : Nat := c ||| 32

/-- The digit value `strconv.ParseUint` reads from the byte `c` when the base is
not 0: `'0'..'9'` and the letters of either case; `none` is the `default`
branch of the switch, a syntax error. -/
def digitVal (c : Nat) : Option Nat :=
  if 48 ≤ c ∧ c ≤ 57 then some (c - 48)
  else if 97 ≤ lower c ∧ lower c ≤ 122 then some (lower c - 97 + 10)
  else none

/-- The loop of `strconv.ParseUint` over the bytes of the argument, with the
accumulator `n`; `cutoff` is the smallest number with `cutoff * base > maxUint64`
and `maxVal` is `2^bitSize - 1`. -/
def parseUintLoop (base cutoff maxVal : Nat) : GoString → Nat → Except NumError Nat
  | [], n => Except.ok n
  | c :: cs, n =>
    match digitVal c with
    | none => Except.error NumError.errSyntax
    | some d =>
      if d ≥ base then Except.error NumError.errSyntax
      else if n ≥ cutoff then Except.error NumError.errRange
      else
        let n0 := (n * base) % uint64Size
        let n1 := (n0 + d) % uint64Size
        if n1 < n0 ∨ n1 > maxVal then Except.error NumError.errRange
        else parseUintLoop base cutoff maxVal cs n1

/-- `strconv.ParseUint(s, base, 64)` for `2 <= base <= 36` (the call site passes
36): the empty string is a syntax error, underscores are not accepted since the
base is not 0, and no sign or base marker is read. -/
def ParseUint (s : GoString) (base : Nat) : Except NumError Nat :=
  if s = [] then Except.error NumError.errSyntax
  else parseUintLoop base ((uint64Size - 1) / base + 1) (uint64Size - 1) s 0

/-- Comparison `a < b` of Go strings: byte-wise lexicographic, a proper prefix
being smaller. -/
def strLt : GoString → GoString → Bool
  | [], [] => false
  | [], _ :: _ => true
  | _ :: _, [] => false
  | a :: as, b :: bs => decide (a < b) || (decide (a = b) && strLt as bs)

/-- Slice expression `s[i:j]`, for `i <= j <= len(s)`. -/
def slice (s : GoString) (i j : Nat) : GoString := (s.take j).drop i

/-- Slice expression `s[i:]`, for `i <= len(s)`. -/
def sliceFrom (s : GoString) (i : Nat) : GoString := s.drop i

/-! ## The codecs of `encoding.go` -/

/-- Encode timestamp to 36-hex string format. -/
def encodeTimeStamp (t : Nat) : GoString :=
  let diff := (t + uint64Size - timeStampHorizon) % uint64Size
  let s := FormatUint diff timeStampConvBase
  sprintfPadZero timeStampSLength s

/-- Decode timestamp from a 36-hex string. -/
def decodeTimeStamp (s : GoString) : Nat × Option Error :=
  if s.length ≠ timeStampSLength then (0, some ErrTimeStampString)
  else
    match ParseUint s timeStampConvBase with
    | Except.error err => (0, some (NewErrCorrupted (Error.num err)))
    | Except.ok n => ((n + timeStampHorizon) % uint64Size, none)

/-- Encode timeseries name and timestamp to db key. -/
def encodeTsKey (name : GoString) (t : Nat) : GoString :=
  let s := encodeTimeStamp t
  [prefixTsKey] ++ name ++ s

/-- Decode timeseries data key into name and timestamp. -/
def decodeTsKey (s : GoString) : GoString × Nat × Option Error :=
  if s.length ≤ timeStampSLength then ([], 0, some ErrTsKey)
  else
    let idx := s.length - timeStampSLength
    let name := slice s 1 idx
    match decodeTimeStamp (sliceFrom s idx) with
    | (_, some err) => ([], 0, some (NewErrCorrupted err))
    | (t, none) => (name, t, none)

/-- Encode timeseries name to db key. -/
def encodeTsName (name : GoString) : GoString :=
  [prefixTsName] ++ name

/-- Decode timeseries name from db key. -/
def decodeTsName (s : GoString) : GoString × Option Error :=
  if s.length < 2 then ([], some ErrTsName)
  else (sliceFrom s 1, none)

/-! ## Reference numerals -/

/-- The `k` least significant base-36 digits of `d`, most significant first. -/
def numeral : Nat → Nat → GoString
  | 0, _ => []
  | k + 1, d => numeral k (d / 36) ++ [digitAt (d % 36)]

/-- The value of a string read as a base-36 numeral, most significant digit first;
the value of a digit is its place in the digit table `0-9`, `a-z`. -/
def numeralValue (s : GoString) : Nat :=
  s.foldl (fun n c => n * 36 + digits.indexOf c) 0

/-! ## Floating-point values

`strconv` reads a `float64` through its bits: a sign, a mantissa `mant` (with the
hidden bit of a normal number set) and an exponent, the value being
`mant * 2^exp`. The model keeps that decoded form. The values of IEEE 754 are
`nan`, the two infinities, and `finite neg mant exp` with `mant < 2^53`,
`-1074 <= exp <= 971` and either `2^52 <= mant` or `exp = -1074` (subnormal
numbers and the zeros). -/

/-- A `float64`, decoded: `finite neg mant exp` is `(-1)^neg * mant * 2^exp`. -/
inductive Float64 where
  | nan
  | inf (neg : Bool)
  | finite (neg : Bool) (mant : Nat) (exp : Int)
  deriving DecidableEq, Repr

/-- The zero value of `float64`, `+0`. -/
def Float64.zero : Float64 := Float64.finite false 0 (-1074)

/-- Whether the decoded form is that of a bit pattern of IEEE 754 binary64. -/
def Float64.isIEEE : Float64 → Bool
  | Float64.nan => true
  | Float64.inf _ => true
  | Float64.finite _ m e =>
    decide (m < 2 ^ 53) && decide (-1074 ≤ e) && decide (e ≤ 971) &&
      (decide (2 ^ 52 ≤ m) || decide (e = -1074))

/-- Numerator of `|v| * 1000` for `v = finite _ mant exp`, over `scaledDen exp`. -/
def scaledNum (mant : Nat) (exp : Int) : Nat := mant * 2 ^ exp.toNat * 1000

/-- Denominator of `|v| * 1000`: `2^(-exp)` when `exp` is negative, else 1. -/
def scaledDen (exp : Int) : Nat := 2 ^ (-exp).toNat

/-- The quotient `n / d` rounded to the nearest integer, a tie going to the even
one: the rule of `shouldRoundUp` in `strconv/decimal.go`, applied there to the
exact decimal expansion of the value. -/
def roundHalfEven (n d : Nat) : Nat :=
  let q := n / d
  let r := n % d
  if 2 * r > d ∨ (2 * r = d ∧ q % 2 = 1) then q + 1 else q

/-- The loop of `decimal.Assign`: the decimal digits of `v`, written in front of
`acc`, none for 0; `fuel` bounds the number of digits. -/
def decimalLoop : Nat → Nat → GoString → GoString
  | 0, _, acc => acc
  | fuel + 1, v, acc =>
    if v > 0 then decimalLoop fuel (v / 10) ((v % 10 + 48) :: acc) else acc

/-- The decimal digits of `v`, most significant first, none for 0. -/
def decimalOf (v : Nat) : GoString := decimalLoop v v []

/-- The `k` least significant decimal digits of `r`, most significant first. -/
def decimalFixed : Nat → Nat → GoString
  | 0, _ => []
  | k + 1, r => decimalFixed k (r / 10) ++ [r % 10 + 48]

/-- `fmtF` of `strconv/ftoa.go` (`%f`: `-ddddddd.ddddd`) on the value already
rounded to `prec` decimals, given as `q = |v| * 10^prec`: the sign, the integer
part (`0` when it has no digit), and for `prec > 0` the point and `prec` digits. -/
def fmtF (neg : Bool) (q prec : Nat) : GoString :=
  (if neg then [45] else []) ++
  (if q / 10 ^ prec > 0 then decimalOf (q / 10 ^ prec) else [48]) ++
  (if prec > 0 then [46] ++ decimalFixed prec (q % 10 ^ prec) else [])

/-- `fmt.Sprintf("%.3f", v)`: `strconv.AppendFloat(_, v, 'f', 3, 64)`, of which
`fmt` drops the `+` it reserved for a positive number. A NaN is written `NaN`
and the infinities `+Inf` and `-Inf`; a finite value is rounded to 3 decimals,
half to even on its exact expansion (`bigFtoa`: `d.Assign(mant)`, `d.Shift`,
`d.Round(d.dp + prec)`), and laid out by `fmtF`. -/
def sprintfFloat3 : Float64 → GoString
  | Float64.nan => ascii "NaN"
  | Float64.inf false => ascii "+Inf"
  | Float64.inf true => ascii "-Inf"
  | Float64.finite neg mant exp =>
    fmtF neg (roundHalfEven (scaledNum mant exp) (scaledDen exp)) 3

/-- Number of bits of `n`, by halving; `fuel` bounds the number of bits. -/
def bitLenLoop : Nat → Nat → Nat
  | 0, _ => 0
  | fuel + 1, n => if n > 0 then bitLenLoop fuel (n / 2) + 1 else 0

/-- Number of bits of `n`: `2^(bitLen n - 1) <= n < 2^(bitLen n)` for `n > 0`. -/
def bitLen (n : Nat) : Nat := bitLenLoop n n

/-- The `float64` nearest to `(-1)^neg * n / d` (`d > 0`), a tie going to the
even mantissa, and whether the value overflows, in which case the result is the
infinity of that sign: the conversion `strconv` performs on the number it has
read (`decimal.floatBits`, `atofHex`, and the fast paths that agree with them). -/
def roundFloat64 (neg : Bool) (n d : Nat) : Float64 × Bool :=
  if n = 0 then (Float64.finite neg 0 (-1074), false)
  else
    let e0 : Int := (bitLen n : Int) - (bitLen d : Int) - 53
    let e1 : Int := if n * 2 ^ (-e0).toNat ≥ 2 ^ 53 * (d * 2 ^ e0.toNat) then e0 + 1 else e0
    let e2 : Int := if e1 < -1074 then -1074 else e1
    let m := roundHalfEven (n * 2 ^ (-e2).toNat) (d * 2 ^ e2.toNat)
    let e3 : Int := if m = 2 ^ 53 then e2 + 1 else e2
    let m3 : Nat := if m = 2 ^ 53 then 2 ^ 52 else m
    if e3 > 971 then (Float64.inf neg, true) else (Float64.finite neg m3 e3, false)

/-- `commonPrefixLenIgnoreCase(s, pre)` of `strconv/atof.go`: the length of the
common beginning of `s` and the lower-case `pre`, the case of `s` ignored. -/
def commonPrefixLenIgnoreCase : GoString → GoString → Nat
  | c :: cs, p :: ps =>
    let c1 := if 65 ≤ c ∧ c ≤ 90 then c + 32 else c
    if c1 ≠ p then 0 else commonPrefixLenIgnoreCase cs ps + 1
  | _, _ => 0

/-- The body of the cases of `special` that look for `inf` or `infinity`, after
`nsign` bytes of sign. -/
def specialInf (neg : Bool) (nsign : Nat) (s : GoString) : Option (Float64 × Nat) :=
  let n := commonPrefixLenIgnoreCase s (ascii "infinity")
  let n1 := if 3 < n ∧ n < 8 then 3 else n
  if n1 = 3 ∨ n1 = 8 then some (Float64.inf neg, nsign + n1) else none

/-- `special(s)` of `strconv/atof.go`: the value and length of a leading `inf`,
`infinity` (possibly signed) or `nan`, whatever the case of the letters. -/
def special : GoString → Option (Float64 × Nat)
  | [] => none
  | c :: cs =>
    if c = 43 ∨ c = 45 then specialInf (decide (c = 45)) 1 cs
    else if c = 105 ∨ c = 73 then specialInf false 0 (c :: cs)
    else if c = 110 ∨ c = 78 then
      if commonPrefixLenIgnoreCase (c :: cs) (ascii "nan") = 3 then some (Float64.nan, 3)
      else none
    else none

/-- The variables of the digit loop of `readFloat`. The source keeps the first 19
digits (16 in base 16) in a `uint64` and a flag for the non-zero digits it drops,
which the slower conversions take into account; `mantissa` holds all `nd`
digits. -/
structure FloatScan where
  mantissa : Nat
  nd : Nat
  dp : Int
  sawdot : Bool
  sawdigits : Bool
  underscores : Bool
  deriving DecidableEq, Repr

/-- The digit loop of `readFloat`: underscores, one point, digits (leading zeros
only move the point), in base 16 also the letters `a-f` of either case; returns
the variables and the bytes not read. -/
def scanDigits (base : Nat) : GoString → FloatScan → FloatScan × GoString
  | [], st => (st, [])
  | c :: cs, st =>
    if c = 95 then scanDigits base cs { st with underscores := true }
    else if c = 46 then
      if st.sawdot then (st, c :: cs)
      else scanDigits base cs { st with sawdot := true, dp := st.nd }
    else if 48 ≤ c ∧ c ≤ 57 then
      if c = 48 ∧ st.nd = 0 then
        scanDigits base cs { st with sawdigits := true, dp := st.dp - 1 }
      else
        scanDigits base cs { st with sawdigits := true, nd := st.nd + 1,
                                     mantissa := st.mantissa * base + (c - 48) }
    else if base = 16 ∧ 97 ≤ lower c ∧ lower c ≤ 102 then
      scanDigits base cs { st with sawdigits := true, nd := st.nd + 1,
                                   mantissa := st.mantissa * 16 + (lower c - 97 + 10) }
    else (st, c :: cs)

/-- The digits of the exponent in `readFloat`: digits and underscores; the
exponent stops growing once it has reached 10000. Returns the exponent, whether an
underscore was seen, and the bytes not read. -/
def scanExp : GoString → Nat → Bool → Nat × Bool × GoString
  | [], e, u => (e, u, [])
  | c :: cs, e, u =>
    if c = 95 then scanExp cs e true
    else if 48 ≤ c ∧ c ≤ 57 then scanExp cs (if e < 10000 then e * 10 + (c - 48) else e) u
    else (e, u, c :: cs)

/-- The loop of `underscoreOK` over the number proper; `saw` is the last thing
seen: `'0'` for a digit or base marker, `'_'`, `'^'` at the beginning, `'!'`
otherwise. -/
def underscoreLoop (hex : Bool) : GoString → Nat → Bool
  | [], saw => decide (saw ≠ 95)
  | c :: cs, saw =>
    if (48 ≤ c ∧ c ≤ 57) ∨ (hex = true ∧ 97 ≤ lower c ∧ lower c ≤ 102) then
      underscoreLoop hex cs 48
    else if c = 95 then
      if saw ≠ 48 then false else underscoreLoop hex cs 95
    else if saw = 95 then false
    else underscoreLoop hex cs 33

/-- `underscoreOK(s)` of `strconv/atoi.go`: underscores must separate digits, or
the base marker and a digit. -/
def underscoreOK (s : GoString) : Bool :=
  let s1 := match s with
    | c :: cs => if c = 45 ∨ c = 43 then cs else s
    | [] => s
  match s1 with
  | c0 :: c1 :: rest =>
    if c0 = 48 ∧ (lower c1 = 98 ∨ lower c1 = 111 ∨ lower c1 = 120) then
      underscoreLoop (decide (lower c1 = 120)) rest 48
    else underscoreLoop false s1 94
  | _ => underscoreLoop false s1 94

/-- What `readFloat` returns when `ok`: the number read is
`(-1)^neg * mantissa * 10^exp`, or `(-1)^neg * mantissa * 2^exp` when `hex`, and
`n` bytes were read. -/
structure ReadFloat where
  mantissa : Nat
  exp : Int
  neg : Bool
  hex : Bool
  n : Nat
  deriving DecidableEq, Repr

/-- The optional exponent of `readFloat`, the marker `e` or `p` being already
read: an optional sign, then at least one digit. Returns the signed exponent,
whether an underscore was seen, and the bytes not read; `none` when the exponent
is malformed. -/
def readExp (s : GoString) : Option (Int × Bool × GoString) :=
  match s with
  | [] => none
  | c :: cs =>
    let esign : Int := if c = 45 then -1 else 1
    let s1 := if c = 43 ∨ c = 45 then cs else c :: cs
    match s1 with
    | [] => none
    | d :: _ =>
      if d < 48 ∨ d > 57 then none
      else
        match scanExp s1 0 false with
        | (e, u, rest) => some ((e : Int) * esign, u, rest)

/-- `readFloat(s)` of `strconv/atof.go`; `none` stands for `ok == false`. -/
def readFloat (s : GoString) : Option ReadFloat :=
  match s with
  | [] => none
  | c :: cs =>
    let neg := decide (c = 45)
    let s1 := if c = 43 ∨ c = 45 then cs else c :: cs
    let hex := match s1 with
      | c0 :: c1 :: _ :: _ => decide (c0 = 48 ∧ lower c1 = 120)
      | _ => false
    let base := if hex then 16 else 10
    let s2 := if hex then s1.drop 2 else s1
    match scanDigits base s2 ⟨0, 0, 0, false, false, false⟩ with
    | (st, rest) =>
      if st.sawdigits = false then none
      else
        let dp0 : Int := if st.sawdot then st.dp else st.nd
        let dp1 : Int := if hex then dp0 * 4 else dp0
        let ndMant : Int := if hex then (st.nd : Int) * 4 else st.nd
        let expChar := if hex then 112 else 101
        let tail : Option (Int × Bool × GoString) :=
          match rest with
          | x :: xs =>
            if lower x = expChar then
              match readExp xs with
              | some (e, u, rest1) => some (dp1 + e, st.underscores || u, rest1)
              | none => none
            else if hex then none
            else some (dp1, st.underscores, rest)
          | [] => if hex then none else some (dp1, st.underscores, rest)
        match tail with
        | none => none
        | some (dp2, underscores, rest2) =>
          let i := s.length - rest2.length
          let exp : Int := if st.mantissa ≠ 0 then dp2 - ndMant else 0
          if underscores = true ∧ underscoreOK (s.take i) = false then none
          else some ⟨st.mantissa, exp, neg, hex, i⟩

/-- `atof64(s)` of `strconv/atof.go`: the value, the number of bytes read and the
error. A special value is read first; otherwise the number read by `readFloat` is
converted to the nearest `float64`, with a range error when it overflows. -/
def atof64 (s : GoString) : Float64 × Nat × Option NumError :=
  match special s with
  | some (v, n) => (v, n, none)
  | none =>
    match readFloat s with
    | none => (Float64.zero, 0, some NumError.errSyntax)
    | some r =>
      let b := if r.hex then 2 else 10
      match roundFloat64 r.neg (r.mantissa * b ^ r.exp.toNat) (b ^ (-r.exp).toNat) with
      | (f, ovf) => (f, r.n, if ovf then some NumError.errRange else none)

/-- `strconv.ParseFloat(s, 64)`: the whole of `s` must have been read. -/
def ParseFloat (s : GoString) : Float64 × Option NumError :=
  match atof64 s with
  | (f, n, err) =>
    if n ≠ s.length ∧ (err = none ∨ err ≠ some NumError.errSyntax) then
      (Float64.zero, some NumError.errSyntax)
    else (f, err)

/-- Encode timeseries value to db value. -/
def encodeTsValue (v : Float64) : GoString :=
  sprintfFloat3 v

/-- Decode timeseries value from db value. -/
def decodeTsValue (s : GoString) : Float64 × Option Error :=
  match ParseFloat s with
  | (v, some err) => (v, some (NewErrCorrupted (Error.num err)))
  | (v, none) => (v, none)

/-- Whether a byte is a decimal digit `0-9`. -/
def isDecimalDigit (c : Nat) : Bool := decide (48 ≤ c ∧ c ≤ 57)

/-- The shape the specification gives to an encoded value: a fixed-point decimal
numeral with exactly 3 digits after the point and no exponent, that is an
optional `-`, at least one digit, a point, and three digits. -/
def isFixedPoint3 (s : GoString) : Bool :=
  let u := if s.head? = some 45 then s.tail else s
  let ip := u.take (u.length - 4)
  let fp := u.drop (u.length - 4)
  decide (5 ≤ u.length) && ip.all isDecimalDigit && decide (fp.head? = some 46) &&
    fp.tail.all isDecimalDigit

/-- The value of a string of decimal digits, most significant first. -/
def decimalValue (s : GoString) : Nat :=
  s.foldl (fun n c => n * 10 + (c - 48)) 0

/-- The digits of a numeral read in base 10, sign and point left out: for a
fixed-point numeral with 3 decimals, its absolute value in thousandths. -/
def thousandths (s : GoString) : Nat :=
  decimalValue (s.filter isDecimalDigit)

/-! ## Digits -/

theorem digitVal_digitAt : ∀ d, d < 36 → digitVal (digitAt d) = some d := by decide

theorem digitAt_lt_iff : ∀ a, a < 36 → ∀ b, b < 36 → (digitAt a < digitAt b ↔ a < b) := by
  decide

theorem digitAt_inj : ∀ a, a < 36 → ∀ b, b < 36 → (digitAt a = digitAt b ↔ a = b) := by
  decide

theorem digitAt_zero : digitAt 0 = 48 := rfl

/-! ## Numerals -/

theorem numeral_length (k d : Nat) : (numeral k d).length = k := by
  induction k generalizing d with
  | zero => rfl
  | succ k ih => simp [numeral, ih]

theorem numeral_zero (m : Nat) : numeral m 0 = List.replicate m 48 := by
  induction m with
  | zero => rfl
  | succ m ih =>
    simp only [numeral, Nat.zero_div, Nat.zero_mod, ih, digitAt_zero]
    exact (List.replicate_succ' m 48).symm

theorem numeral_pad (n m u : Nat) (h : u < 36 ^ n) :
    numeral (m + n) u = List.replicate m 48 ++ numeral n u := by
  induction n generalizing u with
  | zero =>
    have : u = 0 := by simpa using h
    subst this
    simp [numeral, numeral_zero]
  | succ n ih =>
    have h1 : u / 36 < 36 ^ n := by
      rw [Nat.div_lt_iff_lt_mul (by decide)]
      simpa [Nat.pow_succ] using h
    show numeral (m + n) (u / 36) ++ [digitAt (u % 36)] = _
    rw [ih _ h1]
    simp [numeral]

/-- The digits written by the loop of `formatBits` in base 36 are the shortest
numeral of `u`: `j + 1` digits, where `j = 0` or `36^j <= u`. -/
theorem formatBitsLoop_numeral (fuel : Nat) : ∀ (u : Nat) (acc : GoString),
    u < 36 ^ (fuel + 1) →
    ∃ j, j ≤ fuel ∧ u < 36 ^ (j + 1) ∧ (j = 0 ∨ 36 ^ j ≤ u) ∧
      formatBitsLoop fuel u 36 acc = numeral (j + 1) u ++ acc := by
  induction fuel with
  | zero =>
    intro u acc h
    refine ⟨0, le_refl _, h, Or.inl rfl, ?_⟩
    have hu : u < 36 := by simpa using h
    simp [formatBitsLoop, numeral, Nat.mod_eq_of_lt hu]
  | succ fuel ih =>
    intro u acc h
    by_cases hb : u ≥ 36
    · have h1 : u / 36 < 36 ^ (fuel + 1) := by
        rw [Nat.div_lt_iff_lt_mul (by decide)]
        simpa [Nat.pow_succ] using h
      obtain ⟨j, hj, hlt, hmin, heq⟩ := ih (u / 36) (digitAt (u - u / 36 * 36) :: acc) h1
      refine ⟨j + 1, by omega, ?_, Or.inr ?_, ?_⟩
      · have := (Nat.div_lt_iff_lt_mul (by decide : 0 < 36)).1 hlt
        simpa [Nat.pow_succ] using this
      · rcases hmin with h0 | h0
        · subst h0; simpa using hb
        · have := (Nat.le_div_iff_mul_le (by decide : 0 < 36)).1 h0
          simpa [Nat.pow_succ] using this
      · have hm : u - u / 36 * 36 = u % 36 := by omega
        rw [hm] at heq
        simp only [formatBitsLoop, if_pos hb, hm, heq]
        show _ = (numeral (j + 1) (u / 36) ++ [digitAt (u % 36)]) ++ acc
        simp
    · have hu : u < 36 := by omega
      refine ⟨0, Nat.zero_le _, by simpa using hu, Or.inl rfl, ?_⟩
      simp [formatBitsLoop, hb, numeral, Nat.mod_eq_of_lt hu]

/-- Within `36^7` the formatted and padded difference is the 7-digit numeral. -/
theorem sprintfPadZero_FormatUint (d : Nat) (h : d < 36 ^ 7) :
    sprintfPadZero timeStampSLength (FormatUint d timeStampConvBase) = numeral 7 d := by
  have h64 : d < 36 ^ (64 + 1) := lt_of_lt_of_le h (Nat.pow_le_pow_right (by decide) (by decide))
  obtain ⟨j, _, hlt, hmin, heq⟩ := formatBitsLoop_numeral 64 d [] h64
  have hj : j + 1 ≤ 7 := by
    rcases hmin with h0 | h0
    · omega
    · have : 36 ^ j < 36 ^ 7 := lt_of_le_of_lt h0 h
      have := (Nat.pow_lt_pow_iff_right (by decide : 1 < 36)).1 this
      omega
  simp only [sprintfPadZero, FormatUint, timeStampConvBase, timeStampSLength, heq,
    List.append_nil, numeral_length]
  have := numeral_pad (j + 1) (7 - (j + 1)) d hlt
  rw [← this]
  congr 1
  omega

/-- The difference to the horizon of a timestamp of the window. -/
theorem diff_window (t : Nat) (h1 : timeStampHorizon ≤ t)
    (h2 : t ≤ timeStampHorizon + 36 ^ 7 - 1) :
    (t + uint64Size - timeStampHorizon) % uint64Size = t - timeStampHorizon ∧
      t - timeStampHorizon < 36 ^ 7 := by
  simp only [timeStampHorizon, uint64Size] at *
  omega

theorem encodeTimeStamp_window (t : Nat) (h1 : timeStampHorizon ≤ t)
    (h2 : t ≤ timeStampHorizon + 36 ^ 7 - 1) :
    encodeTimeStamp t = numeral 7 (t - timeStampHorizon) := by
  obtain ⟨hd, hlt⟩ := diff_window t h1 h2
  simp only [encodeTimeStamp, hd]
  exact sprintfPadZero_FormatUint _ hlt

/-! ## Parsing numerals -/

theorem parseUintLoop_append (b c m : Nat) (xs ys : GoString) (n : Nat) :
    parseUintLoop b c m (xs ++ ys) n =
      (parseUintLoop b c m xs n >>= fun k => parseUintLoop b c m ys k) := by
  induction xs generalizing n with
  | nil => rfl
  | cons x xs ih =>
    simp only [List.cons_append, parseUintLoop]
    cases digitVal x with
    | none => rfl
    | some d =>
      simp only []
      split
      · rfl
      · split
        · rfl
        · split
          · rfl
          · exact ih _

theorem parseUintLoop_numeral (k : Nat) : ∀ d, k ≤ 7 → d < 36 ^ k →
    parseUintLoop 36 ((uint64Size - 1) / 36 + 1) (uint64Size - 1) (numeral k d) 0
      = Except.ok d := by
  induction k with
  | zero =>
    intro d _ h
    have : d = 0 := by simpa using h
    subst this
    rfl
  | succ k ih =>
    intro d hk h
    have hp : 36 ^ (k + 1) ≤ 36 ^ 7 := Nat.pow_le_pow_right (by decide) hk
    have h1 : d / 36 < 36 ^ k := by
      rw [Nat.div_lt_iff_lt_mul (by decide)]
      simpa [Nat.pow_succ] using h
    have hm : d % 36 < 36 := Nat.mod_lt _ (by decide)
    have hd : d < 78364164096 := by
      have : (36 : Nat) ^ 7 = 78364164096 := by norm_num
      omega
    simp only [numeral, parseUintLoop_append, ih (d / 36) (by omega) h1]
    show parseUintLoop 36 _ _ [digitAt (d % 36)] (d / 36) = _
    simp only [parseUintLoop, digitVal_digitAt _ hm, uint64Size]
    have e0 : d / 36 * 36 % 2 ^ 64 = d / 36 * 36 := Nat.mod_eq_of_lt (by omega)
    have e1 : (d / 36 * 36 + d % 36) % 2 ^ 64 = d := by
      rw [Nat.mod_eq_of_lt (by omega)]; omega
    rw [e0, e1]
    rw [if_neg (by omega), if_neg (by norm_num; omega), if_neg (by norm_num; omega)]

theorem ParseUint_numeral (d : Nat) (h : d < 36 ^ 7) :
    ParseUint (numeral 7 d) timeStampConvBase = Except.ok d := by
  have hne : numeral 7 d ≠ [] := by
    intro he
    have := numeral_length 7 d
    rw [he] at this
    exact absurd this (by decide)
  simp only [ParseUint, if_neg hne, timeStampConvBase]
  exact parseUintLoop_numeral 7 d (le_refl _) h

theorem decodeTimeStamp_numeral (d : Nat) (h : d < 36 ^ 7) :
    decodeTimeStamp (numeral 7 d) = (d + timeStampHorizon, none) := by
  have hl : ¬ (numeral 7 d).length ≠ timeStampSLength := by
    simp [numeral_length, timeStampSLength]
  simp only [decodeTimeStamp, if_neg hl, ParseUint_numeral d h]
  have : (d + timeStampHorizon) % uint64Size = d + timeStampHorizon := by
    apply Nat.mod_eq_of_lt
    simp only [timeStampHorizon, uint64Size] at *
    omega
  rw [this]

/-! ## Order of strings -/

theorem strLt_append_left (p a b : GoString) : strLt (p ++ a) (p ++ b) = strLt a b := by
  induction p with
  | nil => rfl
  | cons x p ih => simp [strLt, ih]

theorem strLt_cons (a b : Nat) (as bs : GoString) :
    strLt (a :: as) (b :: bs) = true ↔ a < b ∨ (a = b ∧ strLt as bs = true) := by
  simp [strLt]

theorem strLt_snoc (xs : GoString) : ∀ (ys : GoString) (x y : Nat), xs.length = ys.length →
    (strLt (xs ++ [x]) (ys ++ [y]) = true ↔ strLt xs ys = true ∨ (xs = ys ∧ x < y)) := by
  induction xs with
  | nil =>
    intro ys x y h
    cases ys with
    | nil => simp [strLt]
    | cons b bs => simp at h
  | cons a as ih =>
    intro ys x y h
    cases ys with
    | nil => simp at h
    | cons b bs =>
      have hl : as.length = bs.length := by simpa using h
      have e := ih bs x y hl
      rw [List.cons_append, List.cons_append, strLt_cons, strLt_cons, e, List.cons.injEq]
      constructor
      · rintro (h1 | ⟨h1, h2 | h2⟩)
        · exact Or.inl (Or.inl h1)
        · exact Or.inl (Or.inr ⟨h1, h2⟩)
        · exact Or.inr ⟨⟨h1, h2.1⟩, h2.2⟩
      · rintro ((h1 | ⟨h1, h2⟩) | ⟨⟨h1, h2⟩, h3⟩)
        · exact Or.inl h1
        · exact Or.inr ⟨h1, Or.inl h2⟩
        · exact Or.inr ⟨h1, Or.inr ⟨h2, h3⟩⟩

theorem numeral_inj (k : Nat) : ∀ a b, a < 36 ^ k → b < 36 ^ k →
    (numeral k a = numeral k b ↔ a = b) := by
  induction k with
  | zero =>
    intro a b ha hb
    have h1 : a = 0 := by simpa using ha
    have h2 : b = 0 := by simpa using hb
    simp [h1, h2]
  | succ k ih =>
    intro a b ha hb
    have h1 : a / 36 < 36 ^ k := by
      rw [Nat.div_lt_iff_lt_mul (by decide)]
      simpa [Nat.pow_succ] using ha
    have h2 : b / 36 < 36 ^ k := by
      rw [Nat.div_lt_iff_lt_mul (by decide)]
      simpa [Nat.pow_succ] using hb
    have hl : (numeral k (a / 36)).length = (numeral k (b / 36)).length := by
      simp [numeral_length]
    have ma : a % 36 < 36 := Nat.mod_lt _ (by decide)
    have mb : b % 36 < 36 := Nat.mod_lt _ (by decide)
    simp only [numeral]
    constructor
    · intro h
      obtain ⟨e1, e2⟩ := List.append_inj h hl
      have e3 : a / 36 = b / 36 := (ih _ _ h1 h2).1 e1
      have e4 : a % 36 = b % 36 := (digitAt_inj _ ma _ mb).1 (by simpa using e2)
      omega
    · intro h
      rw [h]

theorem strLt_numeral (k : Nat) : ∀ a b, a < 36 ^ k → b < 36 ^ k →
    (strLt (numeral k a) (numeral k b) = true ↔ a < b) := by
  induction k with
  | zero =>
    intro a b ha hb
    have h1 : a = 0 := by simpa using ha
    have h2 : b = 0 := by simpa using hb
    simp [h1, h2, numeral, strLt]
  | succ k ih =>
    intro a b ha hb
    have h1 : a / 36 < 36 ^ k := by
      rw [Nat.div_lt_iff_lt_mul (by decide)]
      simpa [Nat.pow_succ] using ha
    have h2 : b / 36 < 36 ^ k := by
      rw [Nat.div_lt_iff_lt_mul (by decide)]
      simpa [Nat.pow_succ] using hb
    have hl : (numeral k (a / 36)).length = (numeral k (b / 36)).length := by
      simp [numeral_length]
    have ma : a % 36 < 36 := Nat.mod_lt _ (by decide)
    have mb : b % 36 < 36 := Nat.mod_lt _ (by decide)
    simp only [numeral]
    rw [strLt_snoc _ _ _ _ hl, ih _ _ h1 h2, numeral_inj k _ _ h1 h2,
      digitAt_lt_iff _ ma _ mb]
    omega

/-! ## Rejected bytes -/

theorem lt_of_lower_le (c : Nat) (h : lower c ≤ 122) : c < 128 := by
  by_contra hc
  have hge : c ≥ 2 ^ 7 := by simpa using hc
  obtain ⟨i, hi, hbit⟩ := Nat.ge_two_pow_implies_high_bit_true hge
  have hb : (c ||| 32).testBit i = true := by simp [Nat.testBit_or, hbit]
  have h1 : c ||| 32 ≥ 2 ^ i := Nat.testBit_implies_ge hb
  have h2 : 2 ^ 7 ≤ 2 ^ i := Nat.pow_le_pow_right (by decide) hi
  simp only [lower] at h
  omega

theorem digitVal_small : ∀ c, c < 128 → c ∉ digits → ¬ (65 ≤ c ∧ c ≤ 90) →
    digitVal c = none := by
  decide

theorem digitVal_none (c : Nat) (h1 : c ∉ digits) (h2 : ¬ (65 ≤ c ∧ c ≤ 90)) :
    digitVal c = none := by
  by_cases hc : c < 128
  · exact digitVal_small c hc h1 h2
  · have hl : ¬ lower c ≤ 122 := fun h => hc (lt_of_lower_le c h)
    have hd : ¬ (48 ≤ c ∧ c ≤ 57) := by omega
    simp [digitVal, hd, hl]

theorem parseUintLoop_fails (b k m : Nat) (s : GoString) :
    ∀ n, (∃ c ∈ s, digitVal c = none) → ∃ err, parseUintLoop b k m s n = Except.error err := by
  induction s with
  | nil => intro n h; simp at h
  | cons x xs ih =>
    intro n h
    simp only [parseUintLoop]
    cases hx : digitVal x with
    | none => exact ⟨_, rfl⟩
    | some d =>
      have hxs : ∃ c ∈ xs, digitVal c = none := by
        obtain ⟨c, hc, hn⟩ := h
        rcases List.mem_cons.1 hc with e | e
        · subst e; rw [hx] at hn; cases hn
        · exact ⟨c, e, hn⟩
      simp only []
      split
      · exact ⟨_, rfl⟩
      · split
        · exact ⟨_, rfl⟩
        · split
          · exact ⟨_, rfl⟩
          · exact ih _ hxs

/-! ## Keys -/

theorem encodeTsKey_window (name : GoString) (t : Nat) (h1 : timeStampHorizon ≤ t)
    (h2 : t ≤ timeStampHorizon + 36 ^ 7 - 1) :
    encodeTsKey name t = prefixTsKey :: (name ++ numeral 7 (t - timeStampHorizon)) := by
  simp [encodeTsKey, encodeTimeStamp_window t h1 h2]

theorem decodeTsKey_layout (name ts : GoString) (h : ts.length = 7) :
    decodeTsKey (prefixTsKey :: (name ++ ts)) =
      match decodeTimeStamp ts with
      | (_, some err) => ([], 0, some (NewErrCorrupted err))
      | (t, none) => (name, t, none) := by
  have hlen : (prefixTsKey :: (name ++ ts)).length = name.length + 1 + 7 := by
    simp [h]
  have hn : ¬ (prefixTsKey :: (name ++ ts)).length ≤ timeStampSLength := by
    rw [hlen]; simp [timeStampSLength]
  have hidx : (prefixTsKey :: (name ++ ts)).length - timeStampSLength = name.length + 1 := by
    rw [hlen]; simp [timeStampSLength]
  simp only [decodeTsKey, if_neg hn, hidx, slice, sliceFrom]
  simp

theorem decodeTsKey_window (name : GoString) (t : Nat) (h1 : timeStampHorizon ≤ t)
    (h2 : t ≤ timeStampHorizon + 36 ^ 7 - 1) :
    decodeTsKey (encodeTsKey name t) = (name, t, none) := by
  obtain ⟨_, hlt⟩ := diff_window t h1 h2
  rw [encodeTsKey_window name t h1 h2, decodeTsKey_layout _ _ (numeral_length 7 _),
    decodeTimeStamp_numeral _ hlt]
  have : t - timeStampHorizon + timeStampHorizon = t := by omega
  simp only [this]

/-! ## Properties of the timestamp codec -/

/-- C1. Timestamp round trip: for every timestamp `t` of the window
`[timeStampHorizon, timeStampHorizon + 36^7 - 1]`, decoding the encoding of `t`
returns `t` and no error. -/
theorem decodeTimeStamp_encodeTimeStamp (t : Nat) (h1 : timeStampHorizon ≤ t)
    (h2 : t ≤ timeStampHorizon + 36 ^ 7 - 1) :
    decodeTimeStamp (encodeTimeStamp t) = (t, none) := by
  obtain ⟨_, hlt⟩ := diff_window t h1 h2
  have e : t - timeStampHorizon + timeStampHorizon = t := by omega
  rw [encodeTimeStamp_window t h1 h2, decodeTimeStamp_numeral _ hlt, e]

theorem decodeTimeStamp_encodeTimeStamp_witness :
    timeStampHorizon ≤ 1762214400 ∧ 1762214400 ≤ timeStampHorizon + 36 ^ 7 - 1 ∧
      decodeTimeStamp (encodeTimeStamp 1762214400) = (1762214400, none) :=
  ⟨by decide, by decide,
    decodeTimeStamp_encodeTimeStamp 1762214400 (by decide) (by decide)⟩

/-- C2. Order preservation: for timestamps `t1 < t2` of the window, the encoding of
`t1` is smaller than the encoding of `t2` in the byte-wise lexicographic order of
strings. -/
theorem encodeTimeStamp_strLt (t1 t2 : Nat) (h1 : timeStampHorizon ≤ t1) (h12 : t1 < t2)
    (h2 : t2 ≤ timeStampHorizon + 36 ^ 7 - 1) :
    strLt (encodeTimeStamp t1) (encodeTimeStamp t2) = true := by
  have h1u : t1 ≤ timeStampHorizon + 36 ^ 7 - 1 := by omega
  have h2l : timeStampHorizon ≤ t2 := by omega
  obtain ⟨_, hlt1⟩ := diff_window t1 h1 h1u
  obtain ⟨_, hlt2⟩ := diff_window t2 h2l h2
  rw [encodeTimeStamp_window t1 h1 h1u, encodeTimeStamp_window t2 h2l h2,
    strLt_numeral 7 _ _ hlt1 hlt2]
  omega

theorem encodeTimeStamp_strLt_witness :
    timeStampHorizon ≤ 1449308051 ∧ 1449308051 < 1449308052 ∧
      1449308052 ≤ timeStampHorizon + 36 ^ 7 - 1 ∧
      strLt (encodeTimeStamp 1449308051) (encodeTimeStamp 1449308052) = true :=
  ⟨by decide, by decide, by decide,
    encodeTimeStamp_strLt 1449308051 1449308052 (by decide) (by decide) (by decide)⟩

/-- C3. Fixed width: the encoding of every timestamp of the window has length
`timeStampSLength`, that is 7; the window contains every timestamp up to 100 years
(of 366 days) after the horizon, whose encodings therefore have length 7. -/
theorem encodeTimeStamp_length (t : Nat) (h1 : timeStampHorizon ≤ t)
    (h2 : t ≤ timeStampHorizon + 36 ^ 7 - 1) :
    (encodeTimeStamp t).length = timeStampSLength ∧ timeStampSLength = 7 ∧
      ∀ u, timeStampHorizon ≤ u → u ≤ timeStampHorizon + 100 * 366 * 86400 →
        (encodeTimeStamp u).length = 7 := by
  refine ⟨?_, rfl, ?_⟩
  · rw [encodeTimeStamp_window t h1 h2, numeral_length]; rfl
  · intro u hu1 hu2
    have hu3 : u ≤ timeStampHorizon + 36 ^ 7 - 1 := by
      have : (100 * 366 * 86400 : Nat) ≤ 36 ^ 7 - 1 := by norm_num
      omega
    rw [encodeTimeStamp_window u hu1 hu3, numeral_length]

theorem encodeTimeStamp_length_witness :
    timeStampHorizon ≤ 1449308016 + 36 ^ 7 - 1 ∧
      1449308016 + 36 ^ 7 - 1 ≤ timeStampHorizon + 36 ^ 7 - 1 ∧
      ((encodeTimeStamp (1449308016 + 36 ^ 7 - 1)).length = timeStampSLength ∧
        timeStampSLength = 7 ∧
        ∀ u, timeStampHorizon ≤ u → u ≤ timeStampHorizon + 100 * 366 * 86400 →
          (encodeTimeStamp u).length = 7) :=
  ⟨by decide, by decide,
    encodeTimeStamp_length (1449308016 + 36 ^ 7 - 1) (by decide) (by decide)⟩

/-! ## Properties of the series key and name codecs -/

/-- C4. Series key round trip: for every name, an arbitrary byte string (which may
end in base-36 digits, and may even be empty), and every timestamp `t` of the
window, decoding the key encoded from `name` and `t` returns `name`, `t` and no
error. -/
theorem decodeTsKey_encodeTsKey (name : GoString) (t : Nat) (h1 : timeStampHorizon ≤ t)
    (h2 : t ≤ timeStampHorizon + 36 ^ 7 - 1) :
    decodeTsKey (encodeTsKey name t) = (name, t, none) :=
  decodeTsKey_window name t h1 h2

theorem decodeTsKey_encodeTsKey_witness :
    timeStampHorizon ≤ 1449308017 ∧ 1449308017 ≤ timeStampHorizon + 36 ^ 7 - 1 ∧
      decodeTsKey (encodeTsKey (ascii "cpu.load0000000") 1449308017)
        = (ascii "cpu.load0000000", 1449308017, none) :=
  ⟨by decide, by decide,
    decodeTsKey_encodeTsKey (ascii "cpu.load0000000") 1449308017 (by decide) (by decide)⟩

/-- C5. Chronological key order: for every name and all timestamps `t1`, `t2` of the
window, the key of `(name, t1)` is smaller than the key of `(name, t2)` in the
byte-wise lexicographic order if and only if `t1 < t2`. -/
theorem encodeTsKey_strLt_iff (name : GoString) (t1 t2 : Nat)
    (h1l : timeStampHorizon ≤ t1) (h1u : t1 ≤ timeStampHorizon + 36 ^ 7 - 1)
    (h2l : timeStampHorizon ≤ t2) (h2u : t2 ≤ timeStampHorizon + 36 ^ 7 - 1) :
    strLt (encodeTsKey name t1) (encodeTsKey name t2) = true ↔ t1 < t2 := by
  obtain ⟨_, hlt1⟩ := diff_window t1 h1l h1u
  obtain ⟨_, hlt2⟩ := diff_window t2 h2l h2u
  rw [encodeTsKey_window name t1 h1l h1u, encodeTsKey_window name t2 h2l h2u]
  have e : ∀ x : GoString, prefixTsKey :: (name ++ x) = (prefixTsKey :: name) ++ x := by
    intro x; rfl
  rw [e, e, strLt_append_left, strLt_numeral 7 _ _ hlt1 hlt2]
  omega

theorem encodeTsKey_strLt_iff_witness :
    timeStampHorizon ≤ 1449308051 ∧ 1449308051 ≤ timeStampHorizon + 36 ^ 7 - 1 ∧
      timeStampHorizon ≤ 1449309312 ∧ 1449309312 ≤ timeStampHorizon + 36 ^ 7 - 1 ∧
      (strLt (encodeTsKey (ascii "cpu.load") 1449308051)
          (encodeTsKey (ascii "cpu.load") 1449309312) = true
        ↔ 1449308051 < 1449309312) :=
  ⟨by decide, by decide, by decide, by decide,
    encodeTsKey_strLt_iff (ascii "cpu.load") 1449308051 1449309312
      (by decide) (by decide) (by decide) (by decide)⟩

/-- C6. No key collisions among samples: for all names `n1`, `n2` and all
timestamps `t1`, `t2` of the window, equal keys come from equal names and equal
timestamps. -/
theorem encodeTsKey_injective (n1 n2 : GoString) (t1 t2 : Nat)
    (h1l : timeStampHorizon ≤ t1) (h1u : t1 ≤ timeStampHorizon + 36 ^ 7 - 1)
    (h2l : timeStampHorizon ≤ t2) (h2u : t2 ≤ timeStampHorizon + 36 ^ 7 - 1)
    (h : encodeTsKey n1 t1 = encodeTsKey n2 t2) : n1 = n2 ∧ t1 = t2 := by
  have e1 := decodeTsKey_window n1 t1 h1l h1u
  have e2 := decodeTsKey_window n2 t2 h2l h2u
  rw [h, e2] at e1
  simp only [Prod.mk.injEq, and_true] at e1
  exact ⟨e1.1.symm, e1.2.symm⟩

theorem encodeTsKey_injective_witness :
    timeStampHorizon ≤ 1449308052 ∧ 1449308052 ≤ timeStampHorizon + 36 ^ 7 - 1 ∧
      encodeTsKey (ascii "a1") 1449308052 = encodeTsKey ([97] ++ [49]) (1449308051 + 1) ∧
      ascii "a1" = [97] ++ [49] ∧ 1449308052 = 1449308051 + 1 :=
  ⟨by decide, by decide, by decide,
    encodeTsKey_injective (ascii "a1") ([97] ++ [49]) 1449308052 (1449308051 + 1)
      (by decide) (by decide) (by decide) (by decide) (by decide)⟩

/-- C7. Series name round trip: for every non-empty name, decoding the encoded name
returns the name and no error. -/
theorem decodeTsName_encodeTsName (name : GoString) (h : name ≠ []) :
    decodeTsName (encodeTsName name) = (name, none) := by
  cases name with
  | nil => exact absurd rfl h
  | cons c cs => simp [decodeTsName, encodeTsName, sliceFrom]

theorem decodeTsName_encodeTsName_witness :
    ascii "cpu.load" ≠ [] ∧
      decodeTsName (encodeTsName (ascii "cpu.load")) = (ascii "cpu.load", none) :=
  ⟨by decide, decodeTsName_encodeTsName (ascii "cpu.load") (by decide)⟩

/-- C8. Namespace disjointness: for all names `n`, `m` and every timestamp `t`, the
encoded name of `n` begins with the byte `'1'`, the key of `(m, t)` begins with the
byte `'2'`, so the two are different; the four namespace bytes are `'1'`, `'2'`,
`'3'`, `'4'`, pairwise distinct. -/
theorem encodeTsName_ne_encodeTsKey (n m : GoString) (t : Nat) :
    (encodeTsName n).take 1 = ascii "1" ∧ (encodeTsKey m t).take 1 = ascii "2" ∧
      encodeTsName n ≠ encodeTsKey m t ∧
      [prefixTsName, prefixTsKey, prefixHashName, prefixHashKey] = ascii "1234" ∧
      [prefixTsName, prefixTsKey, prefixHashName, prefixHashKey].Nodup := by
  refine ⟨rfl, rfl, ?_, by decide, by decide⟩
  intro h
  have e : ([prefixTsName] : GoString) = [prefixTsKey] := congrArg (List.take 1) h
  exact absurd e (by decide)

/-! ## Rejection of malformed keys -/

/-- C9, as stated, fails: the string `"000000A"` holds the byte `'A'`, which is not
one of the digits `0-9`, `a-z`, and yet it decodes without error, to the horizon
plus ten. -/
theorem decodeTimeStamp_accepts_upper :
    (∃ c ∈ ascii "000000A", c ∉ digits) ∧
      decodeTimeStamp (ascii "000000A") = (timeStampHorizon + 10, none) := by
  decide

/-- C9, amended. For every string `s`: when its length is not 7, decoding fails with
`ErrTimeStampString`; when it holds a byte that is neither a digit `0-9` nor a
letter `a-z` nor a letter `A-Z`, decoding fails with a corrupted-data error (that
of the length check, or the wrapped error of `strconv.ParseUint`). In particular
`""`, `"toolong12"` and `"!!!!!!!"` are rejected. -/
theorem decodeTimeStamp_rejects (s : GoString) :
    (s.length ≠ 7 → decodeTimeStamp s = (0, some ErrTimeStampString)) ∧
    ((∃ c ∈ s, c ∉ digits ∧ ¬ (65 ≤ c ∧ c ≤ 90)) →
      decodeTimeStamp s = (0, some ErrTimeStampString) ∨
        ∃ err, decodeTimeStamp s = (0, some (NewErrCorrupted (Error.num err)))) ∧
    (∀ e, (decodeTimeStamp s).2 = some e → e.isCorrupted = true) ∧
    decodeTimeStamp (ascii "") = (0, some ErrTimeStampString) ∧
    decodeTimeStamp (ascii "toolong12") = (0, some ErrTimeStampString) ∧
    decodeTimeStamp (ascii "!!!!!!!")
      = (0, some (NewErrCorrupted (Error.num NumError.errSyntax))) := by
  refine ⟨?_, ?_, ?_, by decide, by decide, by decide⟩
  · intro h
    have h7 : s.length ≠ timeStampSLength := h
    simp only [decodeTimeStamp, if_pos h7]
  · rintro ⟨c, hc, hd, hu⟩
    by_cases h7 : s.length ≠ timeStampSLength
    · left; simp only [decodeTimeStamp, if_pos h7]
    · right
      have hne : s ≠ [] := by
        intro he; subst he; simp at hc
      obtain ⟨err, herr⟩ := parseUintLoop_fails timeStampConvBase
        ((uint64Size - 1) / timeStampConvBase + 1) (uint64Size - 1) s 0
        ⟨c, hc, digitVal_none c hd hu⟩
      refine ⟨err, ?_⟩
      simp only [decodeTimeStamp, if_neg h7, ParseUint, if_neg hne, herr]
  · intro e he
    by_cases h7 : s.length ≠ timeStampSLength
    · simp only [decodeTimeStamp, if_pos h7, Option.some.injEq] at he
      subst he; rfl
    · simp only [decodeTimeStamp, if_neg h7] at he
      split at he
      · simp only [Option.some.injEq] at he
        subst he; rfl
      · cases he

/-- C10. Short series keys are rejected: for every string `s` of length at most 7
(the empty string included) decoding the key fails with `ErrTsKey` and returns the
empty name and the timestamp 0; for every longer `s` the length check does not
fire: the result is that of the timestamp decoder, never `ErrTsKey`. -/
theorem decodeTsKey_short (s : GoString) :
    (s.length ≤ 7 → decodeTsKey s = ([], 0, some ErrTsKey)) ∧
    (s.length > 7 →
      (decodeTsKey s =
        match decodeTimeStamp (sliceFrom s (s.length - 7)) with
        | (_, some err) => ([], 0, some (NewErrCorrupted err))
        | (t, none) => (slice s 1 (s.length - 7), t, none)) ∧
      (decodeTsKey s).2.2 ≠ some ErrTsKey) ∧
    decodeTsKey (ascii "") = ([], 0, some ErrTsKey) ∧
    decodeTsKey (ascii "2a00000") = ([], 0, some ErrTsKey) := by
  refine ⟨?_, ?_, by decide, by decide⟩
  · intro h
    have h7 : s.length ≤ timeStampSLength := h
    simp only [decodeTsKey, if_pos h7]
  · intro h
    have h7 : ¬ s.length ≤ 7 := by omega
    have e : decodeTsKey s =
        match decodeTimeStamp (sliceFrom s (s.length - 7)) with
        | (_, some err) => ([], 0, some (NewErrCorrupted err))
        | (t, none) => (slice s 1 (s.length - 7), t, none) := by
      simp only [decodeTsKey, if_neg h7, timeStampSLength]
    refine ⟨e, ?_⟩
    rw [e]
    split
    · simp [NewErrCorrupted, ErrTsKey, NewErrCorruptedWithString]
    · simp


/-! ## Values of numerals -/

theorem indexOf_digits : ∀ c ∈ digits,
    digits.indexOf c < 36 ∧ digitAt (digits.indexOf c) = c := by
  decide

theorem indexOf_digitAt : ∀ d, d < 36 →
    digits.indexOf (digitAt d) = d ∧ digitAt d ∈ digits := by
  decide

theorem numeralValue_snoc (xs : GoString) (c : Nat) :
    numeralValue (xs ++ [c]) = numeralValue xs * 36 + digits.indexOf c := by
  simp [numeralValue, List.foldl_append]

theorem numeralValue_numeral (k : Nat) : ∀ d, d < 36 ^ k → numeralValue (numeral k d) = d := by
  induction k with
  | zero =>
    intro d h
    have : d = 0 := by simpa using h
    subst this
    rfl
  | succ k ih =>
    intro d h
    have h1 : d / 36 < 36 ^ k := by
      rw [Nat.div_lt_iff_lt_mul (by decide)]
      simpa [Nat.pow_succ] using h
    have hm : d % 36 < 36 := Nat.mod_lt _ (by decide)
    simp only [numeral, numeralValue_snoc, ih _ h1, (indexOf_digitAt _ hm).1]
    omega

theorem numeral_mem_digits (k : Nat) : ∀ d, ∀ c ∈ numeral k d, c ∈ digits := by
  induction k with
  | zero => intro d c hc; simp [numeral] at hc
  | succ k ih =>
    intro d c hc
    simp only [numeral, List.mem_append, List.mem_singleton] at hc
    rcases hc with hc | hc
    · exact ih _ c hc
    · rw [hc]; exact (indexOf_digitAt _ (Nat.mod_lt _ (by decide))).2

theorem numeralValue_lt (s : GoString) :
    (∀ c ∈ s, c ∈ digits) → numeralValue s < 36 ^ s.length := by
  induction s using List.reverseRecOn with
  | nil => intro _; simp [numeralValue]
  | append_singleton xs c ih =>
    intro h
    have hxs : ∀ x ∈ xs, x ∈ digits := fun x hx => h x (List.mem_append_left _ hx)
    have hc : c ∈ digits := h c (by simp)
    have h1 := ih hxs
    have h2 := (indexOf_digits c hc).1
    rw [numeralValue_snoc, List.length_append, List.length_singleton, Nat.pow_succ]
    omega

theorem numeral_numeralValue (s : GoString) :
    (∀ c ∈ s, c ∈ digits) → numeral s.length (numeralValue s) = s := by
  induction s using List.reverseRecOn with
  | nil => intro _; rfl
  | append_singleton xs c ih =>
    intro h
    have hxs : ∀ x ∈ xs, x ∈ digits := fun x hx => h x (List.mem_append_left _ hx)
    have hc : c ∈ digits := h c (by simp)
    obtain ⟨h2, h3⟩ := indexOf_digits c hc
    have e1 : (numeralValue xs * 36 + digits.indexOf c) / 36 = numeralValue xs := by omega
    have e2 : (numeralValue xs * 36 + digits.indexOf c) % 36 = digits.indexOf c := by omega
    rw [numeralValue_snoc, List.length_append, List.length_singleton]
    show numeral xs.length _ ++ [digitAt _] = _
    rw [e1, e2, ih hxs, h3]

/-! ## Splitting of keys -/

theorem decodeTsKey_of_long (s : GoString) (h : s.length > 7) :
    decodeTsKey s =
      match decodeTimeStamp (sliceFrom s (s.length - 7)) with
      | (_, some err) => ([], 0, some (NewErrCorrupted err))
      | (t, none) => (slice s 1 (s.length - 7), t, none) := by
  have h7 : ¬ s.length ≤ 7 := by omega
  simp only [decodeTsKey, if_neg h7, timeStampSLength]

/-- C11. Length-based split: for every string `s` longer than 7 bytes, decoding the
key succeeds exactly when decoding its last 7 bytes as a timestamp succeeds; the
name returned is then `s[1 : len(s) - 7]` and the timestamp is the decoded one; when
the timestamp decoder fails with `err`, the key decoder returns the empty name, 0
and `err` wrapped as a corrupted-data error. -/
theorem decodeTsKey_split (s : GoString) (h : s.length > 7) :
    (sliceFrom s (s.length - 7)).length = 7 ∧
    ((decodeTsKey s).2.2 = none ↔ (decodeTimeStamp (sliceFrom s (s.length - 7))).2 = none) ∧
    (∀ t, decodeTimeStamp (sliceFrom s (s.length - 7)) = (t, none) →
      decodeTsKey s = (slice s 1 (s.length - 7), t, none)) ∧
    (∀ v err, decodeTimeStamp (sliceFrom s (s.length - 7)) = (v, some err) →
      decodeTsKey s = ([], 0, some (NewErrCorrupted err)) ∧
        (NewErrCorrupted err).isCorrupted = true) := by
  have e := decodeTsKey_of_long s h
  refine ⟨?_, ?_, ?_, ?_⟩
  · simp only [sliceFrom, List.length_drop]; omega
  · rw [e]
    rcases hd : decodeTimeStamp (sliceFrom s (s.length - 7)) with ⟨v, _ | err⟩
    · simp
    · simp
  · intro t ht
    rw [e, ht]
  · intro v err hv
    rw [e, hv]
    exact ⟨rfl, rfl⟩

theorem decodeTsKey_split_witness :
    (ascii "2cpu.load00000zz").length > 7 ∧
      decodeTsKey (ascii "2cpu.load00000zz")
        = (slice (ascii "2cpu.load00000zz") 1 ((ascii "2cpu.load00000zz").length - 7),
            timeStampHorizon + 1295, none) ∧
      decodeTsKey (ascii "2cpu.load00000!z")
        = ([], 0, some (NewErrCorrupted (NewErrCorrupted (Error.num NumError.errSyntax)))) :=
  ⟨by decide,
    (decodeTsKey_split (ascii "2cpu.load00000zz") (by decide)).2.2.1
      (timeStampHorizon + 1295) (by decide),
    by decide⟩

/-- C12. Series name decoding: for every string `s`, decoding the name fails with
`ErrTsName`, returning the empty string, if and only if `s` is shorter than 2
bytes; otherwise it succeeds and returns `s` without its first byte. -/
theorem decodeTsName_spec (s : GoString) :
    ((decodeTsName s).2 = some ErrTsName ↔ s.length < 2) ∧
    (s.length < 2 → decodeTsName s = ([], some ErrTsName)) ∧
    (¬ s.length < 2 → decodeTsName s = (s.tail, none)) ∧
    decodeTsName (ascii "") = ([], some ErrTsName) ∧
    decodeTsName (ascii "1") = ([], some ErrTsName) ∧
    decodeTsName (ascii "1a") = (ascii "a", none) := by
  refine ⟨?_, ?_, ?_, by decide, by decide, by decide⟩
  · by_cases h : s.length < 2
    · simp [decodeTsName, h]
    · simp [decodeTsName, h]
  · intro h
    simp only [decodeTsName, if_pos h]
  · intro h
    simp only [decodeTsName, if_neg h, sliceFrom, List.drop_one]

/-- C13. Series key layout: for every name and every timestamp `t`, the key is the
one-byte string `"2"` followed by the bytes of the name and by the encoding of
`t`, and the encoded name is `"1"` followed by the name; the key of `"cpu.load"` at
the horizon is `"2cpu.load0000000"`, which decodes to `"cpu.load"` and the
horizon. -/
theorem encodeTsKey_layout (name : GoString) (t : Nat) :
    encodeTsKey name t = ascii "2" ++ name ++ encodeTimeStamp t ∧
    encodeTsName name = ascii "1" ++ name ∧
    encodeTsKey (ascii "cpu.load") 1449308016 = ascii "2cpu.load0000000" ∧
    decodeTsKey (ascii "2cpu.load0000000") = (ascii "cpu.load", 1449308016, none) :=
  ⟨rfl, rfl, by decide, by decide⟩

/-- C14. The timestamp encoding equals its reference definition: for every
timestamp `t` of the window, the encoding of `t` has 7 characters, all among the
digits `0-9`, `a-z`, its value as a base-36 numeral (most significant digit first)
is `t - timeStampHorizon`, and it is the only such string; it is the 7-digit
numeral of the difference, leading zeros included. -/
theorem encodeTimeStamp_numeral (t : Nat) (h1 : timeStampHorizon ≤ t)
    (h2 : t ≤ timeStampHorizon + 36 ^ 7 - 1) :
    (encodeTimeStamp t).length = 7 ∧
    (∀ c ∈ encodeTimeStamp t, c ∈ digits) ∧
    numeralValue (encodeTimeStamp t) = t - timeStampHorizon ∧
    encodeTimeStamp t = numeral 7 (t - timeStampHorizon) ∧
    (∀ s : GoString, s.length = 7 → (∀ c ∈ s, c ∈ digits) →
      numeralValue s = t - timeStampHorizon → s = encodeTimeStamp t) := by
  obtain ⟨_, hlt⟩ := diff_window t h1 h2
  have e := encodeTimeStamp_window t h1 h2
  refine ⟨?_, ?_, ?_, e, ?_⟩
  · rw [e, numeral_length]
  · rw [e]; exact numeral_mem_digits 7 _
  · rw [e]; exact numeralValue_numeral 7 _ hlt
  · intro s hl hs hv
    have := numeral_numeralValue s hs
    rw [hl, hv] at this
    rw [e, this]

theorem encodeTimeStamp_numeral_witness :
    timeStampHorizon ≤ 1449354671 ∧ 1449354671 ≤ timeStampHorizon + 36 ^ 7 - 1 ∧
      encodeTimeStamp 1449354671 = ascii "0000zzz" ∧
      numeralValue (encodeTimeStamp 1449354671) = 1449354671 - timeStampHorizon :=
  ⟨by decide, by decide, by decide,
    (encodeTimeStamp_numeral 1449354671 (by decide) (by decide)).2.2.1⟩

/-! ## Timestamps outside the window -/

theorem FormatUint_numeral (d : Nat) (h : d < uint64Size) :
    ∃ j, d < 36 ^ (j + 1) ∧ (j = 0 ∨ 36 ^ j ≤ d) ∧
      FormatUint d timeStampConvBase = numeral (j + 1) d := by
  have h64 : d < 36 ^ (64 + 1) :=
    lt_of_lt_of_le h (by simp only [uint64Size]; norm_num)
  obtain ⟨j, _, hlt, hmin, heq⟩ := formatBitsLoop_numeral 64 d [] h64
  refine ⟨j, hlt, hmin, ?_⟩
  simp only [FormatUint, timeStampConvBase, heq, List.append_nil]

/-- A difference of at least `36^7` is written with `k >= 8` digits, without
padding. -/
theorem sprintfPadZero_FormatUint_large (d : Nat) (h : d < uint64Size) (hd : 36 ^ 7 ≤ d) :
    ∃ k, 8 ≤ k ∧ 36 ^ (k - 1) ≤ d ∧ d < 36 ^ k ∧
      sprintfPadZero timeStampSLength (FormatUint d timeStampConvBase) = numeral k d := by
  obtain ⟨j, hlt, hmin, heq⟩ := FormatUint_numeral d h
  have hj : 7 < j + 1 :=
    (Nat.pow_lt_pow_iff_right (by decide : 1 < 36)).1 (lt_of_le_of_lt hd hlt)
  refine ⟨j + 1, by omega, ?_, hlt, ?_⟩
  · rcases hmin with h0 | h0
    · omega
    · simpa using h0
  · have e : timeStampSLength - (j + 1) = 0 := by simp only [timeStampSLength]; omega
    simp only [sprintfPadZero, heq, numeral_length, e, List.replicate_zero, List.nil_append]

theorem decodeTimeStamp_of_length_ne (s : GoString) (h : s.length ≠ 7) :
    decodeTimeStamp s = (0, some ErrTimeStampString) := by
  have h7 : s.length ≠ timeStampSLength := h
  simp only [decodeTimeStamp, if_pos h7]

theorem encodeTimeStamp_large (t : Nat) (ht : t < uint64Size)
    (h : t < timeStampHorizon ∨ timeStampHorizon + 36 ^ 7 ≤ t) :
    ∃ k, 8 ≤ k ∧ encodeTimeStamp t = numeral k ((t + uint64Size - timeStampHorizon) % uint64Size) ∧
      36 ^ (k - 1) ≤ (t + uint64Size - timeStampHorizon) % uint64Size ∧
      (t + uint64Size - timeStampHorizon) % uint64Size < 36 ^ k := by
  have p7 : (36 : Nat) ^ 7 = 78364164096 := by norm_num
  have hd : 36 ^ 7 ≤ (t + uint64Size - timeStampHorizon) % uint64Size := by
    simp only [timeStampHorizon, uint64Size] at *
    omega
  have hu : (t + uint64Size - timeStampHorizon) % uint64Size < uint64Size :=
    Nat.mod_lt _ (by simp [uint64Size])
  obtain ⟨k, hk, hlo, hhi, heq⟩ := sprintfPadZero_FormatUint_large _ hu hd
  exact ⟨k, hk, heq, hlo, hhi⟩

theorem roundTrip_window (t : Nat) (h1 : timeStampHorizon ≤ t)
    (h2 : t ≤ timeStampHorizon + 36 ^ 7 - 1) :
    decodeTimeStamp (encodeTimeStamp t) = (t, none) := by
  obtain ⟨_, hlt⟩ := diff_window t h1 h2
  have e : t - timeStampHorizon + timeStampHorizon = t := by omega
  rw [encodeTimeStamp_window t h1 h2, decodeTimeStamp_numeral _ hlt, e]

theorem roundTrip_outside (t : Nat) (ht : t < uint64Size)
    (h : t < timeStampHorizon ∨ timeStampHorizon + 36 ^ 7 ≤ t) :
    decodeTimeStamp (encodeTimeStamp t) = (0, some ErrTimeStampString) := by
  obtain ⟨k, hk, heq, _, _⟩ := encodeTimeStamp_large t ht h
  apply decodeTimeStamp_of_length_ne
  rw [heq, numeral_length]
  omega

/-- C15. Timestamps outside the window are not representable. For every `uint64`
timestamp `t`: below the horizon the subtraction wraps modulo `2^64` and the
encoding is the 13-character base-36 numeral of `2^64 - (timeStampHorizon - t)`;
from `timeStampHorizon + 36^7` on the encoding has at least 8 characters; in both
cases the encoder returns a string, and decoding that string fails with
`ErrTimeStampString`; hence the round trip holds if and only if `t` is in the
window. -/
theorem encodeTimeStamp_outside (t : Nat) (ht : t < uint64Size) :
    (t < timeStampHorizon →
      encodeTimeStamp t = numeral 13 (uint64Size - (timeStampHorizon - t)) ∧
        36 ^ 12 ≤ uint64Size - (timeStampHorizon - t) ∧
        (encodeTimeStamp t).length = 13) ∧
    (timeStampHorizon + 36 ^ 7 ≤ t → 8 ≤ (encodeTimeStamp t).length) ∧
    (t < timeStampHorizon ∨ timeStampHorizon + 36 ^ 7 ≤ t →
      decodeTimeStamp (encodeTimeStamp t) = (0, some ErrTimeStampString)) ∧
    (decodeTimeStamp (encodeTimeStamp t) = (t, none) ↔
      timeStampHorizon ≤ t ∧ t ≤ timeStampHorizon + 36 ^ 7 - 1) := by
  have p7 : (36 : Nat) ^ 7 = 78364164096 := by norm_num
  refine ⟨?_, ?_, roundTrip_outside t ht, ?_⟩
  · intro hlt
    obtain ⟨k, hk, heq, hlo, hhi⟩ := encodeTimeStamp_large t ht (Or.inl hlt)
    have p12 : (36 : Nat) ^ 12 = 4738381338321616896 := by norm_num
    have p13 : (36 : Nat) ^ 13 = 170581728179578208256 := by norm_num
    have ed : (t + uint64Size - timeStampHorizon) % uint64Size
        = uint64Size - (timeStampHorizon - t) := by
      simp only [timeStampHorizon, uint64Size] at *
      omega
    rw [ed] at heq hlo hhi
    have lo : 36 ^ 12 ≤ uint64Size - (timeStampHorizon - t) := by
      simp only [timeStampHorizon, uint64Size] at *
      omega
    have hi : uint64Size - (timeStampHorizon - t) < 36 ^ 13 := by
      simp only [timeStampHorizon, uint64Size] at *
      omega
    have k1 : k - 1 < 13 :=
      (Nat.pow_lt_pow_iff_right (by decide : 1 < 36)).1 (lt_of_le_of_lt hlo hi)
    have k2 : 12 < k :=
      (Nat.pow_lt_pow_iff_right (by decide : 1 < 36)).1 (lt_of_le_of_lt lo hhi)
    have hk13 : k = 13 := by omega
    subst hk13
    exact ⟨heq, lo, by rw [heq, numeral_length]⟩
  · intro hge
    obtain ⟨k, hk, heq, _, _⟩ := encodeTimeStamp_large t ht (Or.inr hge)
    rw [heq, numeral_length]
    exact hk
  · constructor
    · intro h
      by_contra hw
      have ho : t < timeStampHorizon ∨ timeStampHorizon + 36 ^ 7 ≤ t := by omega
      rw [roundTrip_outside t ht ho] at h
      simp at h
    · rintro ⟨h1, h2⟩
      exact roundTrip_window t h1 h2

theorem encodeTimeStamp_outside_witness :
    1449308015 < uint64Size ∧
      encodeTimeStamp 1449308015 = ascii "3w5e11264sgsf" ∧
      (encodeTimeStamp 1449308015 = numeral 13 (uint64Size - (timeStampHorizon - 1449308015)) ∧
        36 ^ 12 ≤ uint64Size - (timeStampHorizon - 1449308015) ∧
        (encodeTimeStamp 1449308015).length = 13) ∧
      decodeTimeStamp (encodeTimeStamp 1449308015) = (0, some ErrTimeStampString) :=
  ⟨by decide, by decide,
    (encodeTimeStamp_outside 1449308015 (by decide)).1 (by decide),
    by decide⟩

/-! ## Accepted timestamp strings -/

theorem decodeTimeStamp_ok (s : GoString) (t : Nat) (h : decodeTimeStamp s = (t, none)) :
    s.length = 7 ∧ s ≠ [] ∧
      ∃ n, parseUintLoop 36 ((uint64Size - 1) / 36 + 1) (uint64Size - 1) s 0 = Except.ok n ∧
        t = (n + timeStampHorizon) % uint64Size := by
  by_cases h7 : s.length ≠ timeStampSLength
  · simp [decodeTimeStamp, if_pos h7] at h
  · have hl : s.length = 7 := by simpa [timeStampSLength] using h7
    have hne : s ≠ [] := by
      intro he; subst he; simp at hl
    simp only [decodeTimeStamp, if_neg h7, ParseUint, if_neg hne, timeStampConvBase] at h
    refine ⟨hl, hne, ?_⟩
    cases hp : parseUintLoop 36 ((uint64Size - 1) / 36 + 1) (uint64Size - 1) s 0 with
    | error err => rw [hp] at h; simp at h
    | ok n =>
      rw [hp] at h
      simp only [Prod.mk.injEq, and_true] at h
      exact ⟨n, rfl, h.symm⟩

theorem parseUintLoop_lt (k m : Nat) (s : GoString) : ∀ n0 n,
    parseUintLoop 36 k m s n0 = Except.ok n → n < (n0 + 1) * 36 ^ s.length := by
  induction s with
  | nil =>
    intro n0 n h
    simp only [parseUintLoop, Except.ok.injEq] at h
    simp only [List.length_nil, pow_zero, mul_one]
    omega
  | cons x xs ih =>
    intro n0 n h
    simp only [parseUintLoop] at h
    cases hx : digitVal x with
    | none => rw [hx] at h; cases h
    | some d =>
      rw [hx] at h
      simp only [] at h
      split at h
      · cases h
      · rename_i hd
        split at h
        · cases h
        · split at h
          · cases h
          · have h1 := ih _ _ h
            have hle : (n0 * 36 % uint64Size + d) % uint64Size + 1 ≤ (n0 + 1) * 36 := by
              have a1 : n0 * 36 % uint64Size ≤ n0 * 36 := Nat.mod_le _ _
              have a2 : (n0 * 36 % uint64Size + d) % uint64Size ≤ n0 * 36 % uint64Size + d :=
                Nat.mod_le _ _
              omega
            calc n < ((n0 * 36 % uint64Size + d) % uint64Size + 1) * 36 ^ xs.length := h1
              _ ≤ ((n0 + 1) * 36) * 36 ^ xs.length := Nat.mul_le_mul_right _ hle
              _ = (n0 + 1) * 36 ^ (x :: xs).length := by
                rw [List.length_cons, Nat.pow_succ]; ring

theorem mem_digits_of_accepted (s : GoString) (n0 n : Nat) (k m : Nat)
    (h : parseUintLoop 36 k m s n0 = Except.ok n)
    (hu : ∀ c ∈ s, ¬ (65 ≤ c ∧ c ≤ 90)) : ∀ c ∈ s, c ∈ digits := by
  intro c hc
  by_contra hd
  obtain ⟨err, herr⟩ := parseUintLoop_fails 36 k m s n0 ⟨c, hc, digitVal_none c hd (hu c hc)⟩
  rw [herr] at h
  cases h

/-- C16, as stated, fails: `"000000A"` decodes without error to the horizon plus
ten, whose encoding is `"000000a"`, a different string; the two distinct strings
`"000000A"` and `"000000a"` decode to the same timestamp. -/
theorem encodeTimeStamp_decodeTimeStamp_upper :
    decodeTimeStamp (ascii "000000A") = (timeStampHorizon + 10, none) ∧
      encodeTimeStamp (timeStampHorizon + 10) ≠ ascii "000000A" ∧
      ascii "000000A" ≠ ascii "000000a" ∧
      decodeTimeStamp (ascii "000000A") = decodeTimeStamp (ascii "000000a") := by
  decide

/-- C16, amended. For every string `s` that holds no upper-case letter `A-Z` and on
which the timestamp decoder succeeds with result `t`, the encoding of `t` is `s`
(so distinct accepted strings without upper-case letters never decode to the same
timestamp). -/
theorem encodeTimeStamp_decodeTimeStamp (s : GoString) (t : Nat)
    (h : decodeTimeStamp s = (t, none)) (hu : ∀ c ∈ s, ¬ (65 ≤ c ∧ c ≤ 90)) :
    encodeTimeStamp t = s := by
  obtain ⟨hl, _, n, hp, _⟩ := decodeTimeStamp_ok s t h
  have hs : ∀ c ∈ s, c ∈ digits := mem_digits_of_accepted s 0 n _ _ hp hu
  have hv : numeralValue s < 36 ^ 7 := by
    have := numeralValue_lt s hs
    rwa [hl] at this
  have es : numeral 7 (numeralValue s) = s := by
    have := numeral_numeralValue s hs
    rwa [hl] at this
  have hd := decodeTimeStamp_numeral (numeralValue s) hv
  rw [es, h] at hd
  have ht : t = numeralValue s + timeStampHorizon := by
    simpa using congrArg Prod.fst hd
  have h1 : timeStampHorizon ≤ t := by omega
  have h2 : t ≤ timeStampHorizon + 36 ^ 7 - 1 := by omega
  have e : t - timeStampHorizon = numeralValue s := by omega
  rw [encodeTimeStamp_window t h1 h2, e, es]

theorem encodeTimeStamp_decodeTimeStamp_witness :
    decodeTimeStamp (ascii "00zz9a0") = (1509739560, none) ∧
      (∀ c ∈ ascii "00zz9a0", ¬ (65 ≤ c ∧ c ≤ 90)) ∧
      encodeTimeStamp 1509739560 = ascii "00zz9a0" :=
  ⟨by decide, by decide,
    encodeTimeStamp_decodeTimeStamp (ascii "00zz9a0") 1509739560 (by decide) (by decide)⟩

/-- C18. Decoded timestamps lie in the window: for every string `s` on which the
timestamp decoder succeeds with result `t`, `t` is between `timeStampHorizon` and
`timeStampHorizon + 36^7 - 1`; the number `n` parsed from the 7 characters is
below `36^7`, hence below `2^64`, and `n + timeStampHorizon` does not wrap modulo
`2^64`. -/
theorem decodeTimeStamp_window (s : GoString) (t : Nat) (h : decodeTimeStamp s = (t, none)) :
    timeStampHorizon ≤ t ∧ t ≤ timeStampHorizon + 36 ^ 7 - 1 ∧
      ∃ n, ParseUint s timeStampConvBase = Except.ok n ∧ n < 36 ^ 7 ∧ n < uint64Size ∧
        n + timeStampHorizon < uint64Size ∧ t = n + timeStampHorizon := by
  obtain ⟨hl, hne, n, hp, ht⟩ := decodeTimeStamp_ok s t h
  have hn : n < 36 ^ 7 := by
    have := parseUintLoop_lt _ _ s 0 n hp
    simpa [hl] using this
  have p7 : (36 : Nat) ^ 7 = 78364164096 := by norm_num
  have hw : n + timeStampHorizon < uint64Size := by
    simp only [timeStampHorizon, uint64Size] at *
    omega
  have ht2 : t = n + timeStampHorizon := by
    rw [ht, Nat.mod_eq_of_lt hw]
  refine ⟨by omega, by omega, n, ?_, hn, by omega, hw, ht2⟩
  simp only [ParseUint, if_neg hne, timeStampConvBase, hp]

theorem decodeTimeStamp_window_witness :
    decodeTimeStamp (ascii "ZZZZZZZ") = (79813472111, none) ∧
      timeStampHorizon ≤ 79813472111 ∧ 79813472111 ≤ timeStampHorizon + 36 ^ 7 - 1 :=
  ⟨by decide,
    (decodeTimeStamp_window (ascii "ZZZZZZZ") 79813472111 (by decide)).1,
    (decodeTimeStamp_window (ascii "ZZZZZZZ") 79813472111 (by decide)).2.1⟩

/-! ## The namespace byte is not read back -/

theorem decodeTsKey_cons (a b : Nat) (r : GoString) :
    decodeTsKey (a :: r) = decodeTsKey (b :: r) := by
  by_cases h : (a :: r).length > 7
  · have h2 : (b :: r).length > 7 := by simpa using h
    have hr : r.length + 1 - 7 = (r.length - 7) + 1 := by
      simp only [List.length_cons] at h; omega
    rw [decodeTsKey_of_long _ h, decodeTsKey_of_long _ h2]
    simp only [List.length_cons, hr, slice, sliceFrom, List.take_succ_cons, List.drop_succ_cons]
  · have h1 : (a :: r).length ≤ timeStampSLength := by
      simp only [timeStampSLength]; omega
    have h2 : (b :: r).length ≤ timeStampSLength := by simpa using h1
    simp only [decodeTsKey, if_pos h1, if_pos h2]

/-- C19. The decoders do not validate the namespace byte: for all strings `s` and
`s'` of equal length that agree on every byte but possibly the first, the key
decoder returns the same result on both, error included, and so does the name
decoder; `"1cpu.load0000000"`, which begins with the prefix of series names,
decodes as a key to `"cpu.load"` and the horizon. -/
theorem decode_ignores_first_byte (s s' : GoString) (hl : s.length = s'.length)
    (ht : s.tail = s'.tail) :
    decodeTsKey s = decodeTsKey s' ∧ decodeTsName s = decodeTsName s' ∧
      decodeTsKey (ascii "1cpu.load0000000") = (ascii "cpu.load", 1449308016, none) := by
  refine ⟨?_, ?_, by decide⟩
  · cases s with
    | nil =>
      cases s' with
      | nil => rfl
      | cons b r' => simp at hl
    | cons a r =>
      cases s' with
      | nil => simp at hl
      | cons b r' =>
        have e : r = r' := by simpa using ht
        subst e
        exact decodeTsKey_cons a b r
  · cases s with
    | nil =>
      cases s' with
      | nil => rfl
      | cons b r' => simp at hl
    | cons a r =>
      cases s' with
      | nil => simp at hl
      | cons b r' =>
        have e : r = r' := by simpa using ht
        subst e
        simp [decodeTsName, sliceFrom]

theorem decode_ignores_first_byte_witness :
    (ascii "1cpu.load00000zz").length = (ascii "2cpu.load00000zz").length ∧
      (ascii "1cpu.load00000zz").tail = (ascii "2cpu.load00000zz").tail ∧
      decodeTsKey (ascii "1cpu.load00000zz") = decodeTsKey (ascii "2cpu.load00000zz") ∧
      decodeTsName (ascii "1cpu.load00000zz") = decodeTsName (ascii "2cpu.load00000zz") :=
  ⟨by decide, by decide,
    (decode_ignores_first_byte (ascii "1cpu.load00000zz") (ascii "2cpu.load00000zz")
      (by decide) (by decide)).1,
    (decode_ignores_first_byte (ascii "1cpu.load00000zz") (ascii "2cpu.load00000zz")
      (by decide) (by decide)).2.1⟩

/-- C20. Outside the window keys can collide: the names `"a"` and `"a1"` are
different, the timestamps `timeStampHorizon + 36^7` and `timeStampHorizon` are
`uint64` values not below the horizon, and both keys are `"2a10000000"`; the
encoder returns the string without any check of the timestamp. -/
theorem encodeTsKey_collision :
    ascii "a" ≠ ascii "a1" ∧
      timeStampHorizon ≤ timeStampHorizon + 36 ^ 7 ∧ timeStampHorizon + 36 ^ 7 < uint64Size ∧
      encodeTsKey (ascii "a") (timeStampHorizon + 36 ^ 7) = ascii "2a10000000" ∧
      encodeTsKey (ascii "a1") timeStampHorizon = ascii "2a10000000" ∧
      ∃ n1 n2 t1 t2, n1 ≠ n2 ∧ timeStampHorizon ≤ t1 ∧ timeStampHorizon ≤ t2 ∧
        t1 < uint64Size ∧ t2 < uint64Size ∧ encodeTsKey n1 t1 = encodeTsKey n2 t2 :=
  ⟨by decide, by decide, by decide, by decide, by decide,
    ascii "a", ascii "a1", timeStampHorizon + 36 ^ 7, timeStampHorizon,
    by decide, by decide, by decide, by decide, by decide, by decide⟩


/-! ## Formatting of values -/

theorem roundHalfEven_spec (n d : Nat) (hd : 0 < d) :
    2 * n ≤ 2 * (roundHalfEven n d * d) + d ∧ 2 * (roundHalfEven n d * d) ≤ 2 * n + d ∧
      ((2 * (roundHalfEven n d * d) = 2 * n + d ∨ 2 * (roundHalfEven n d * d) + d = 2 * n) →
        roundHalfEven n d % 2 = 0) := by
  have hn : d * (n / d) + n % d = n := Nat.div_add_mod n d
  have hm : n / d * d = d * (n / d) := Nat.mul_comm _ _
  have hs : (n / d + 1) * d = d * (n / d) + d := by rw [Nat.add_mul, hm, Nat.one_mul]
  have hr : n % d < d := Nat.mod_lt _ hd
  simp only [roundHalfEven]
  split
  · rw [hs]
    refine ⟨by omega, by omega, ?_⟩
    intro ht
    omega
  · rw [hm]
    refine ⟨by omega, by omega, ?_⟩
    intro ht
    omega

theorem decimalValue_snoc (xs : GoString) (c : Nat) :
    decimalValue (xs ++ [c]) = decimalValue xs * 10 + (c - 48) := by
  simp [decimalValue, List.foldl_append]

theorem decimalValue_append (xs ys : GoString) :
    decimalValue (xs ++ ys) = decimalValue xs * 10 ^ ys.length + decimalValue ys := by
  induction ys using List.reverseRecOn with
  | nil => simp [decimalValue]
  | append_singleton ys c ih =>
    rw [← List.append_assoc, decimalValue_snoc, ih, decimalValue_snoc, List.length_append,
      List.length_singleton, Nat.pow_succ]
    ring

theorem decimalFixed_length (k r : Nat) : (decimalFixed k r).length = k := by
  induction k generalizing r with
  | zero => rfl
  | succ k ih => simp [decimalFixed, ih]

theorem decimalFixed_digits (k : Nat) : ∀ r, ∀ c ∈ decimalFixed k r, isDecimalDigit c = true := by
  induction k with
  | zero => intro r c hc; simp [decimalFixed] at hc
  | succ k ih =>
    intro r c hc
    simp only [decimalFixed, List.mem_append, List.mem_singleton] at hc
    rcases hc with hc | hc
    · exact ih _ c hc
    · have : r % 10 < 10 := Nat.mod_lt _ (by decide)
      simp only [isDecimalDigit, decide_eq_true_eq]
      omega

theorem decimalFixed_value (k : Nat) : ∀ r, decimalValue (decimalFixed k r) = r % 10 ^ k := by
  induction k with
  | zero => intro r; simp [decimalFixed, decimalValue, Nat.mod_one]
  | succ k ih =>
    intro r
    rw [decimalFixed, decimalValue_snoc, ih, Nat.add_sub_cancel, Nat.pow_succ,
      Nat.mul_comm (10 ^ k) 10, Nat.mod_mul]
    omega

theorem decimalLoop_spec (fuel : Nat) : ∀ (v : Nat) (acc : GoString), v ≤ fuel →
    ∃ ds : GoString, decimalLoop fuel v acc = ds ++ acc ∧
      (∀ c ∈ ds, isDecimalDigit c = true) ∧ decimalValue ds = v ∧ (0 < v → ds ≠ []) := by
  induction fuel with
  | zero =>
    intro v acc hv
    have h0 : v = 0 := by omega
    subst h0
    exact ⟨[], rfl, by simp, rfl, by simp⟩
  | succ fuel ih =>
    intro v acc hv
    by_cases hpos : v > 0
    · have hle : v / 10 ≤ fuel := by omega
      obtain ⟨ds, he, hd, hval, _⟩ := ih (v / 10) ((v % 10 + 48) :: acc) hle
      refine ⟨ds ++ [v % 10 + 48], ?_, ?_, ?_, ?_⟩
      · simp only [decimalLoop, if_pos hpos, he, List.append_assoc, List.singleton_append]
      · intro c hc
        simp only [List.mem_append, List.mem_singleton] at hc
        rcases hc with hc | hc
        · exact hd c hc
        · simp only [isDecimalDigit, decide_eq_true_eq]
          omega
      · rw [decimalValue_snoc, hval, Nat.add_sub_cancel]
        omega
      · intro _; simp
    · have h0 : v = 0 := by omega
      subst h0
      exact ⟨[], by simp [decimalLoop], by simp, rfl, by simp⟩

/-- The integer part written by `fmtF`: at least one digit, of value `n`. -/
theorem integerPart_spec (n : Nat) :
    ∃ ip : GoString, (if n > 0 then decimalOf n else [48]) = ip ∧ ip ≠ [] ∧
      (∀ c ∈ ip, isDecimalDigit c = true) ∧ decimalValue ip = n := by
  by_cases hn : n > 0
  · obtain ⟨ds, he, hd, hval, hne⟩ := decimalLoop_spec n n [] (le_refl _)
    refine ⟨ds, ?_, hne hn, hd, hval⟩
    simp only [if_pos hn, decimalOf, he, List.append_nil]
  · have h0 : n = 0 := by omega
    subst h0
    exact ⟨[48], by simp, by simp, by simp [isDecimalDigit], by simp [decimalValue]⟩

/-- A string made of digits, a point and three digits, with or without a leading
`-`, has the fixed-point shape, and its value in thousandths is read from its
digits. -/
theorem isFixedPoint3_of_parts (neg : Bool) (ip f : GoString) (hne : ip ≠ [])
    (hip : ∀ c ∈ ip, isDecimalDigit c = true) (hfl : f.length = 3)
    (hf : ∀ c ∈ f, isDecimalDigit c = true) :
    isFixedPoint3 ((if neg then [45] else []) ++ ip ++ ([46] ++ f)) = true ∧
      (((if neg then [45] else []) ++ ip ++ ([46] ++ f)).head? = some 45 ↔ neg = true) ∧
      thousandths ((if neg then [45] else []) ++ ip ++ ([46] ++ f))
        = decimalValue ip * 1000 + decimalValue f := by
  obtain ⟨a, as, rfl⟩ := List.exists_cons_of_ne_nil hne
  have ha : isDecimalDigit a = true := hip a (by simp)
  have ha45 : a ≠ 45 := by
    intro h; subst h; simp [isDecimalDigit] at ha
  have hshape : isFixedPoint3 ((a :: as) ++ ([46] ++ f)) = true := by
    have hh : ((a :: as) ++ ([46] ++ f)).head? ≠ some 45 := by simp [ha45]
    have hl : ((a :: as) ++ ([46] ++ f)).length - 4 = (a :: as).length := by
      simp [hfl]
    simp only [isFixedPoint3, if_neg hh, hl, List.take_left', List.drop_left']
    have h5 : 5 ≤ ((a :: as) ++ ([46] ++ f)).length := by simp [hfl]
    simp only [decide_eq_true h5, Bool.true_and, Bool.and_eq_true, List.all_eq_true,
      decide_eq_true_eq]
    exact ⟨⟨hip, by simp⟩, by simpa using hf⟩
  have hfilter : ((a :: as) ++ ([46] ++ f)).filter isDecimalDigit = (a :: as) ++ f := by
    have h46 : isDecimalDigit 46 = false := by decide
    rw [List.filter_append, List.filter_append, List.filter_eq_self.2 hip,
      List.filter_eq_self.2 hf]
    simp [List.filter, h46]
  have hval : thousandths ((a :: as) ++ ([46] ++ f))
      = decimalValue (a :: as) * 1000 + decimalValue f := by
    rw [thousandths, hfilter, decimalValue_append, hfl]
    norm_num
  cases neg with
  | false =>
    refine ⟨by simpa using hshape, ?_, by simpa using hval⟩
    simp [ha45]
  | true =>
    refine ⟨?_, by simp, ?_⟩
    · have e : isFixedPoint3 ([45] ++ (a :: as) ++ ([46] ++ f))
          = isFixedPoint3 ((a :: as) ++ ([46] ++ f)) := by
        have hh : ([45] ++ (a :: as) ++ ([46] ++ f)).head? = some 45 := rfl
        have hh2 : ((a :: as) ++ ([46] ++ f)).head? ≠ some 45 := by simp [ha45]
        simp only [isFixedPoint3, if_pos hh, if_neg hh2]
        rfl
      show isFixedPoint3 ([45] ++ (a :: as) ++ ([46] ++ f)) = true
      rw [e]
      exact hshape
    · have h45 : isDecimalDigit 45 = false := by decide
      have e : thousandths ([45] ++ (a :: as) ++ ([46] ++ f))
          = thousandths ((a :: as) ++ ([46] ++ f)) := by
        simp only [thousandths, List.append_assoc, List.singleton_append, List.cons_append]
        rw [List.filter_cons_of_neg (by simp [h45])]
        rfl
      show thousandths ([45] ++ (a :: as) ++ ([46] ++ f)) = _
      rw [e]
      exact hval

theorem scaledDen_pos (exp : Int) : 0 < scaledDen exp := by
  simp only [scaledDen]
  exact Nat.pow_pos (by decide)

/-- The string written for a finite value: sign, integer digits, point, three
digits, the digits being those of the value rounded to thousandths. -/
theorem encodeTsValue_parts (neg : Bool) (mant : Nat) (exp : Int) :
    isFixedPoint3 (encodeTsValue (Float64.finite neg mant exp)) = true ∧
      ((encodeTsValue (Float64.finite neg mant exp)).head? = some 45 ↔ neg = true) ∧
      thousandths (encodeTsValue (Float64.finite neg mant exp))
        = roundHalfEven (scaledNum mant exp) (scaledDen exp) := by
  obtain ⟨ip, he, hne, hip, hval⟩ :=
    integerPart_spec (roundHalfEven (scaledNum mant exp) (scaledDen exp) / 10 ^ 3)
  have e : encodeTsValue (Float64.finite neg mant exp)
      = (if neg then [45] else []) ++ ip ++
        ([46] ++ decimalFixed 3 (roundHalfEven (scaledNum mant exp) (scaledDen exp) % 10 ^ 3)) := by
    have h3 : (3 : Nat) > 0 := by decide
    simp only [encodeTsValue, sprintfFloat3, fmtF, he, if_pos h3]
  obtain ⟨h1, h2, h3⟩ := isFixedPoint3_of_parts neg ip
    (decimalFixed 3 (roundHalfEven (scaledNum mant exp) (scaledDen exp) % 10 ^ 3)) hne hip
    (decimalFixed_length 3 _) (decimalFixed_digits 3 _)
  rw [e]
  refine ⟨h1, h2, ?_⟩
  rw [h3, hval, decimalFixed_value]
  have : (10 : Nat) ^ 3 = 1000 := by norm_num
  rw [this]
  omega

/-! ## Properties of the value codec -/

/-- C17, as stated, fails: a NaN is a `float64` and its encoding is `NaN`, the
encodings of the infinities are `+Inf` and `-Inf`; none of them is a fixed-point
numeral with 3 digits after a decimal point. -/
theorem encodeTsValue_nan :
    encodeTsValue Float64.nan = ascii "NaN" ∧
      isFixedPoint3 (encodeTsValue Float64.nan) = false ∧
      encodeTsValue (Float64.inf false) = ascii "+Inf" ∧
      isFixedPoint3 (encodeTsValue (Float64.inf false)) = false ∧
      encodeTsValue (Float64.inf true) = ascii "-Inf" ∧
      isFixedPoint3 (encodeTsValue (Float64.inf true)) = false := by
  decide

/-- C17, amended. For every finite `float64` value `v = (-1)^neg * mant * 2^exp`
(neither a NaN nor an infinity), the encoding of `v` is a fixed-point decimal
numeral without exponent and with exactly 3 digits after the point, with a leading
`-` exactly when the sign bit is set, and its value `q / 1000` is `|v|` rounded to
3 places: `|q / 1000 - |v|| <= 1 / 2000`, with `q` even when `|v|` is halfway
between two numerals. The `float64` nearest to 3.14159 is encoded as `"3.142"`,
and decoding `"3.142"` succeeds with the `float64` nearest to 3.142. -/
theorem encodeTsValue_finite (neg : Bool) (mant : Nat) (exp : Int) :
    isFixedPoint3 (encodeTsValue (Float64.finite neg mant exp)) = true ∧
    ((encodeTsValue (Float64.finite neg mant exp)).head? = some 45 ↔ neg = true) ∧
    2 * scaledNum mant exp ≤
      2 * (thousandths (encodeTsValue (Float64.finite neg mant exp)) * scaledDen exp)
        + scaledDen exp ∧
    2 * (thousandths (encodeTsValue (Float64.finite neg mant exp)) * scaledDen exp)
      ≤ 2 * scaledNum mant exp + scaledDen exp ∧
    ((2 * (thousandths (encodeTsValue (Float64.finite neg mant exp)) * scaledDen exp)
          = 2 * scaledNum mant exp + scaledDen exp ∨
        2 * (thousandths (encodeTsValue (Float64.finite neg mant exp)) * scaledDen exp)
          + scaledDen exp = 2 * scaledNum mant exp) →
      thousandths (encodeTsValue (Float64.finite neg mant exp)) % 2 = 0) ∧
    roundFloat64 false 314159 100000
      = (Float64.finite false 7074231776675438 (-51), false) ∧
    2 * (314159 * 2 ^ 51 - 7074231776675438 * 100000) ≤ 100000 ∧
    2 * (7074231776675438 * 100000 - 314159 * 2 ^ 51) ≤ 100000 ∧
    encodeTsValue (Float64.finite false 7074231776675438 (-51)) = ascii "3.142" ∧
    decodeTsValue (ascii "3.142") = (Float64.finite false 7075155014599049 (-51), none) ∧
    2 * (3142 * 2 ^ 51 - 7075155014599049 * 1000) ≤ 1000 ∧
    2 * (7075155014599049 * 1000 - 3142 * 2 ^ 51) ≤ 1000 ∧
    (Float64.finite false 7074231776675438 (-51)).isIEEE = true ∧
    (Float64.finite false 7075155014599049 (-51)).isIEEE = true := by
  obtain ⟨h1, h2, h3⟩ := encodeTsValue_parts neg mant exp
  obtain ⟨r1, r2, r3⟩ := roundHalfEven_spec (scaledNum mant exp) (scaledDen exp)
    (scaledDen_pos exp)
  rw [h3]
  exact ⟨h1, h2, r1, r2, r3, by decide, by decide, by decide, by decide, by decide,
    by decide, by decide, by decide, by decide⟩

end Tsdb
